import Mathlib

/-!
Shallow embedding of the `twister` forward-proxy core (crates `twister_http`
and `twister_core`) and proofs about its specification claims.

Bytes are modelled as `Nat`, byte slices as `List Nat`.  The non-blocking
duplex streams the connection machine drives are modelled as scripted
streams: a list of read events (a delivered chunk, a would-block, or a fatal
error) and a list of write events (accept up to `n` bytes, would-block, or a
fatal error); an empty write script means every write is accepted in full.
`std::io::copy` and `std::io::Write::write_all`, which `connection.rs` calls
on these streams, are modelled from their documented std behaviour (8192-byte
internal buffer; any read/write error, would-block included, is returned
immediately; `Interrupted` retries are not modelled since scripted streams
never produce them).
-/

namespace Twister

/-! ## twister_http: byte-level helpers (`parser.rs`) -/

/-- Byte class used by `split_as_first_newline` / `skip_newline`: CR or LF. -/
def isNl (b : Nat) : Bool := b == 13 || b == 10

/-- Byte class used by the whitespace splitters: space or tab. -/
def isWs (b : Nat) : Bool := b == 32 || b == 9

/-- Byte class skipped after a header name: tab, space or `:`. -/
def isSep (b : Nat) : Bool := b == 9 || b == 32 || b == 58

/-- `skip_newline` from `parser.rs`: drop the leading run of CR/LF bytes
(everything dropped if no other byte occurs). -/
def skip_newline (data : List Nat) : List Nat := data.dropWhile isNl

/-- `skip_whitespace` from `parser.rs`: drop the leading run of space/tab. -/
def skip_whitespace (data : List Nat) : List Nat := data.dropWhile isWs

/-- `skip_header_separator` from `parser.rs`: drop the leading run of
tab/space/`:` bytes. -/
def skip_header_separator (data : List Nat) : List Nat := data.dropWhile isSep

/-- `split_as_first_newline` from `parser.rs`: split at the first CR/LF byte;
`none` when no such byte exists. -/
def split_as_first_newline (data : List Nat) : Option (List Nat × List Nat) :=
  if data.any isNl then
    some (data.takeWhile (fun b => !isNl b), data.dropWhile (fun b => !isNl b))
  else none

/-- `split_at_first_whitespace` from `parser.rs`: split at the first
space/tab byte; `none` when no such byte exists. -/
def split_at_first_whitespace (data : List Nat) : Option (List Nat × List Nat) :=
  if data.any isWs then
    some (data.takeWhile (fun b => !isWs b), data.dropWhile (fun b => !isWs b))
  else none

/-- `split_at_first_header_separator` from `parser.rs`: split at the first
`:` byte; `none` when no such byte exists. -/
def split_at_first_header_separator (data : List Nat) : Option (List Nat × List Nat) :=
  if data.any (fun b => b == 58) then
    some (data.takeWhile (fun b => !(b == 58)), data.dropWhile (fun b => !(b == 58)))
  else none

/-- `Header` from `lib.rs`: a name/value pair of byte slices. -/
structure Header where
  name : List Nat
  value : List Nat
deriving DecidableEq

/-- `ProtocolParser::parse`: split the method at the first whitespace run,
the path at the next whitespace run, the version at the first CR/LF, and
consume the trailing newline run.  The Rust state machine
(`Method → Path → Version`) runs these steps in sequence within one call,
failing (`None`) as soon as a split fails. -/
def protocolParse (data : List Nat) :
    Option (List Nat × List Nat × List Nat × List Nat) :=
  match split_at_first_whitespace data with
  | none => none
  | some (method, t1) =>
    match split_at_first_whitespace (skip_whitespace t1) with
    | none => none
    | some (path, t2) =>
      match split_as_first_newline (skip_whitespace t2) with
      | none => none
      | some (version, t3) => some (method, path, version, skip_newline t3)

/-- `HeaderParser::parse`: when the data contains no `:` byte the parser
returns the empty header together with the data stripped of its leading
newline run; otherwise it splits the name at the first `:`, skips the
separator run, splits the value at the first CR/LF (failing without one) and
consumes the trailing newline run. -/
def headerParse (data : List Nat) : Option (Header × List Nat) :=
  match split_at_first_header_separator data with
  | none => some (⟨[], []⟩, skip_newline data)
  | some (name, t1) =>
    match split_as_first_newline (skip_header_separator t1) with
    | none => none
    | some (value, t2) => some (⟨name, value⟩, skip_newline t2)

/-- Outcome of the header loop inside `HttpObjectParser::parse`. -/
inductive HdrOut where
  /-- Blank-name sentinel reached: filled header prefix and body remainder. -/
  | complete (hs : List Header) (body : List Nat)
  /-- The `panic!("Not enough room for headers")` branch. -/
  | panicCapacity
  /-- `HeaderParser::parse` returned `None`: the `while let` loop exits,
  the object parser moves to `Done` and the next loop iteration hits
  `panic!("parse called on finished result")`. -/
  | panicIncomplete
deriving DecidableEq

/-- Header loop of `HttpObjectParser::parse`, fuelled for structural
recursion: each accepted header consumes at least the `:` byte, so
`data.length + 1` fuel always suffices (`headersLoopF_congr`). -/
def headersLoopF : Nat → Nat → List Header → List Nat → HdrOut
  | 0, _, _, _ => .panicIncomplete
  | fuel+1, cap, acc, data =>
    match headerParse data with
    | none => .panicIncomplete
    | some (hd, t) =>
      if hd.name.length = 0 then .complete acc t
      else if cap ≤ acc.length then .panicCapacity
      else headersLoopF fuel cap (acc ++ [hd]) t

/-- Header loop of `HttpObjectParser::parse` with sufficient fuel. -/
def headersLoop (cap : Nat) (acc : List Header) (data : List Nat) : HdrOut :=
  headersLoopF (data.length + 1) cap acc data

/-- Outcome of `HttpObjectParser::parse::<Request>`. -/
inductive ObjOut where
  /-- A complete object: protocol-line parts, filled headers, body. -/
  | complete (part1 part2 part3 : List Nat) (hs : List Header) (body : List Nat)
  /-- `None`: the protocol line has no complete token structure yet. -/
  | incomplete
  /-- Header-table capacity exceeded (process abort in the source). -/
  | panicCapacity
  /-- Header line with `:` but no terminating newline (process abort). -/
  | panicIncomplete
deriving DecidableEq

/-- `HttpObjectParser::parse` over a header table of capacity `cap`:
parse the protocol line, then run the header loop on the remainder. -/
def httpObjectParse (cap : Nat) (data : List Nat) : ObjOut :=
  match protocolParse data with
  | none => .incomplete
  | some (part1, part2, part3, t) =>
    match headersLoop cap [] t with
    | .complete hs body => .complete part1 part2 part3 hs body
    | .panicCapacity => .panicCapacity
    | .panicIncomplete => .panicIncomplete

/-! ## twister_http: method classification (`lib.rs`) -/

/-- `HttpMethod` from `lib.rs`. -/
inductive HttpMethod where
  | connect | get | post | put | delete | patch | head
  | other (bytes : List Nat)
deriving DecidableEq

/-- `to_lower` from `lib.rs`: map `b'A'..=b'Z'` to lower case, adding
`b'a' - b'A' = 32`. -/
def to_lower (v : Nat) : Nat := if 65 ≤ v ∧ v ≤ 90 then v + 32 else v

/-- Indexed scan inside `which_of`: first candidate whose lower-cased bytes
equal the lower-cased needle. -/
def whichOfFrom (to_find : List Nat) : Nat → List (List Nat) → Option Nat
  | _, [] => none
  | i, el :: rest =>
    if el.map to_lower = to_find.map to_lower then some i
    else whichOfFrom to_find (i + 1) rest

/-- `which_of` from `lib.rs`. -/
def which_of (to_find : List Nat) (in_set : List (List Nat)) : Option Nat :=
  whichOfFrom to_find 0 in_set

/-- The candidate byte strings of `From<&[u8]> for HttpMethod`, in source
order: `connect`, `Get`, `Post`, `Put`, `Delete`, `Patch`, `Head`. -/
def methodCandidates : List (List Nat) :=
  [[99, 111, 110, 110, 101, 99, 116],
   [71, 101, 116],
   [80, 111, 115, 116],
   [80, 117, 116],
   [68, 101, 108, 101, 116, 101],
   [80, 97, 116, 99, 104],
   [72, 101, 97, 100]]

/-- `From<&[u8]> for HttpMethod`: case-insensitive first match against the
candidate set, else `Other` carrying the original bytes. -/
def methodFrom (bytes : List Nat) : HttpMethod :=
  match which_of bytes methodCandidates with
  | some 0 => .connect
  | some 1 => .get
  | some 2 => .post
  | some 3 => .put
  | some 4 => .delete
  | some 5 => .patch
  | some 6 => .head
  | _ => .other bytes

/-! ## Scripted non-blocking duplex streams

A `Stream` scripts what the OS would deliver: `reads` is the sequence of
outcomes of successive `read` calls (a `chunk []` or an exhausted script is
EOF, i.e. `Ok(0)`); `wscript` is the sequence of outcomes of successive
`write` calls, an exhausted write script accepting every write in full;
`written` accumulates all bytes the program wrote to the stream. -/

/-- One scripted outcome of a `read` call. -/
inductive ReadEv where
  /-- `Ok(bs.length)` delivering `bs`; `chunk []` is EOF. -/
  | chunk (bs : List Nat)
  /-- `Err(WouldBlock)`. -/
  | block
  /-- Any other I/O error. -/
  | ioErr
deriving DecidableEq

/-- One scripted outcome of a `write` call. -/
inductive WriteEv where
  /-- Accept up to `n` bytes of the offered buffer. -/
  | accept (n : Nat)
  /-- `Err(WouldBlock)`. -/
  | block
  /-- Any other I/O error. -/
  | ioErr
deriving DecidableEq

/-- A scripted non-blocking stream. -/
structure Stream where
  reads : List ReadEv
  wscript : List WriteEv
  written : List Nat
deriving DecidableEq

/-- The `std::io::Error` values the embedded code distinguishes. -/
inductive IoError where
  | wouldBlock
  | unexpectedEof
  /-- `write` returned `Ok(0)` inside `write_all` (`ErrorKind::WriteZero`). -/
  | writeZero
  /-- Any other fatal I/O error. -/
  | fatal
deriving DecidableEq

/-- `read` with a buffer of `cap` bytes: consume the next read event.  A
chunk longer than `cap` delivers its first `cap` bytes and leaves the rest
at the head of the script. -/
def streamRead (s : Stream) (cap : Nat) : Except IoError (List Nat) × Stream :=
  match s.reads with
  | [] => (.ok [], s)
  | .chunk bs :: rest =>
    let give := bs.take cap
    let keep := bs.drop cap
    (.ok give, { s with reads := if keep.isEmpty then rest else .chunk keep :: rest })
  | .block :: rest => (.error .wouldBlock, { s with reads := rest })
  | .ioErr :: rest => (.error .fatal, { s with reads := rest })

/-- `write` offering `buf`: consume the next write event.  An exhausted
write script accepts the whole buffer. -/
def streamWrite (s : Stream) (buf : List Nat) : Except IoError Nat × Stream :=
  match s.wscript with
  | [] => (.ok buf.length, { s with written := s.written ++ buf })
  | .accept n :: rest =>
    let k := min n buf.length
    (.ok k, { s with written := s.written ++ buf.take k, wscript := rest })
  | .block :: rest => (.error .wouldBlock, { s with wscript := rest })
  | .ioErr :: rest => (.error .fatal, { s with wscript := rest })

/-- Loop of `std::io::Write::write_all` over the write script: write until
the buffer is exhausted; `Ok(0)` from a write is `WriteZero`; any error
(would-block included) returns immediately, keeping what was written. -/
def writeAllFrom : List WriteEv → List Nat → List Nat →
    Except IoError Unit × List WriteEv × List Nat
  | ws, acc, [] => (.ok (), ws, acc)
  | [], acc, b :: buf => (.ok (), [], acc ++ b :: buf)
  | .accept n :: rest, acc, b :: buf =>
    let k := min n (b :: buf).length
    if k = 0 then (.error .writeZero, rest, acc)
    else writeAllFrom rest (acc ++ (b :: buf).take k) ((b :: buf).drop k)
  | .block :: rest, acc, _ => (.error .wouldBlock, rest, acc)
  | .ioErr :: rest, acc, _ => (.error .fatal, rest, acc)

/-- `write_all` on a scripted stream. -/
def writeAll (s : Stream) (buf : List Nat) : Except IoError Unit × Stream :=
  match writeAllFrom s.wscript s.written buf with
  | (r, ws, acc) => (r, { s with wscript := ws, written := acc })

deriving instance DecidableEq for Except

/-- Result of `std::io::copy`: outcome, final reader, final writer, and the
byte count of each successful read attempt (ghost log used to state the
chunk-size claims). -/
structure CopyOut where
  res : Except IoError Nat
  r : Stream
  w : Stream
  attempts : List Nat
deriving DecidableEq

/-- Fuel-indexed loop of `std::io::copy` with its 8192-byte buffer: read a
chunk, return the total at EOF, `write_all` the chunk, and propagate any
read or write error immediately (bytes read but not written are lost).
Each non-EOF iteration consumes read-script weight, so
`streamMeasure r + 1` fuel always suffices (`ioCopyF_congr`). -/
def ioCopyF : Nat → Stream → Stream → Nat → List Nat → CopyOut
  | 0, r, w, total, att => ⟨.ok total, r, w, att⟩
  | fuel+1, r, w, total, att =>
    match streamRead r 8192 with
    | (.ok [], r') => ⟨.ok total, r', w, att⟩
    | (.ok (b :: bs), r') =>
      match writeAll w (b :: bs) with
      | (.ok _, w') =>
        ioCopyF fuel r' w' (total + (b :: bs).length) (att ++ [(b :: bs).length])
      | (.error e, w') => ⟨.error e, r', w', att ++ [(b :: bs).length]⟩
    | (.error e, r') => ⟨.error e, r', w, att⟩

/-- Weight of the read script: drops by at least one on every successful
non-empty read. -/
def streamMeasure (s : Stream) : Nat :=
  (s.reads.map (fun e => match e with | .chunk bs => bs.length + 1 | _ => 1)).sum

/-- `std::io::copy` on scripted streams. -/
def ioCopy (r w : Stream) : CopyOut := ioCopyF (streamMeasure r + 1) r w 0 []

/-! ## twister_core: handlers and the connection machine (`connection.rs`) -/

/-- `RequestHandler`: the owned client stream and the accumulation buffer. -/
structure ReqH where
  stream : Stream
  buf : List Nat
deriving DecidableEq

/-- `read_into`: read into a 512-byte scratch buffer and append what was
read to the accumulation buffer. -/
def read_into (buffer : List Nat) (s : Stream) :
    Except IoError Nat × List Nat × Stream :=
  match streamRead s 512 with
  | (.ok bs, s') => (.ok bs.length, buffer ++ bs, s')
  | (.error e, s') => (.error e, buffer, s')

/-- Outcome of `RequestHandler::poll`, with the handler or the transferred
stream.  `fatal` models `Err(e)` (stream retained by the handler);
`panicked` models the process aborts reachable from the parser. -/
inductive RHOut where
  | moreData (h : ReqH)
  | wantsProxy (dest : List Nat) (s : Stream)
  | wantsResource (path : List Nat) (s : Stream)
  | invalid (h : ReqH)
  | fatal (e : IoError) (h : ReqH)
  | panicked
deriving DecidableEq

/-- A UTF-8 continuation byte (`0x80..=0xBF`). -/
def isCont (b : Nat) : Bool := 128 ≤ b && b ≤ 191

/-- UTF-8 validity of a byte sequence, as checked by `str::from_utf8`:
ASCII bytes stand alone; `0xC2..=0xDF` take one continuation byte;
three-byte leads `0xE0`/`0xE1..=0xEC`/`0xED`/`0xEE..=0xEF` take two, with
the narrowed first-continuation ranges excluding overlong forms and
surrogates; four-byte leads `0xF0`/`0xF1..=0xF3`/`0xF4` take three, with
the narrowed ranges excluding overlong forms and values above
`U+10FFFF`. -/
def isUtf8 : List Nat → Bool
  | [] => true
  | b :: rest =>
    if b ≤ 127 then isUtf8 rest
    else if 194 ≤ b && b ≤ 223 then
      match rest with
      | c1 :: rest' => isCont c1 && isUtf8 rest'
      | [] => false
    else if b = 224 then
      match rest with
      | c1 :: c2 :: rest' => (160 ≤ c1 && c1 ≤ 191) && isCont c2 && isUtf8 rest'
      | _ => false
    else if 225 ≤ b && b ≤ 236 then
      match rest with
      | c1 :: c2 :: rest' => isCont c1 && isCont c2 && isUtf8 rest'
      | _ => false
    else if b = 237 then
      match rest with
      | c1 :: c2 :: rest' => (128 ≤ c1 && c1 ≤ 159) && isCont c2 && isUtf8 rest'
      | _ => false
    else if 238 ≤ b && b ≤ 239 then
      match rest with
      | c1 :: c2 :: rest' => isCont c1 && isCont c2 && isUtf8 rest'
      | _ => false
    else if b = 240 then
      match rest with
      | c1 :: c2 :: c3 :: rest' =>
        (144 ≤ c1 && c1 ≤ 191) && isCont c2 && isCont c3 && isUtf8 rest'
      | _ => false
    else if 241 ≤ b && b ≤ 243 then
      match rest with
      | c1 :: c2 :: c3 :: rest' =>
        isCont c1 && isCont c2 && isCont c3 && isUtf8 rest'
      | _ => false
    else if b = 244 then
      match rest with
      | c1 :: c2 :: c3 :: rest' =>
        (128 ≤ c1 && c1 ≤ 143) && isCont c2 && isCont c3 && isUtf8 rest'
      | _ => false
    else false

/-- Classification step of `RequestHandler::poll`: parse the whole
accumulated buffer against a 32-slot header table and classify by method.
The `Connect` and `Get` arms run `str::from_utf8(object.path).unwrap()`,
so a non-UTF-8 path aborts the process there; the catch-all `Invalid` arm
never touches the path.  Paths are otherwise kept as raw bytes. -/
def rhClassify (h : ReqH) : RHOut :=
  match httpObjectParse 32 h.buf with
  | .incomplete => .moreData h
  | .panicCapacity => .panicked
  | .panicIncomplete => .panicked
  | .complete method path _ _ _ =>
    match methodFrom method with
    | .connect => if isUtf8 path then .wantsProxy path h.stream else .panicked
    | .get => if isUtf8 path then .wantsResource path h.stream else .panicked
    | _ => .invalid h

/-- `RequestHandler::poll`: read (0 bytes ⇒ `UnexpectedEof`, would-block ⇒
0 new bytes without failing, other errors fatal), then re-parse the entire
accumulated buffer from its start. -/
def requestHandlerPoll (h : ReqH) : RHOut :=
  match read_into h.buf h.stream with
  | (.ok n, buf', s') =>
    if n = 0 then .fatal .unexpectedEof ⟨s', buf'⟩
    else rhClassify ⟨s', buf'⟩
  | (.error .wouldBlock, buf', s') => rhClassify ⟨s', buf'⟩
  | (.error e, buf', s') => .fatal e ⟨s', buf'⟩

/-- `ResponseHandler`: the owned stream and a cursor over the fixed
response bytes. -/
structure RespH where
  stream : Stream
  pos : Nat
  resp : List Nat
deriving DecidableEq

/-- Fuel-indexed `std::io::copy` from a `Cursor<Vec<u8>>` at position `pos`
into a stream: the cursor read advances even when the subsequent write
fails.  `resp.length - pos + 1` fuel always suffices. -/
def respCopyF : Nat → List Nat → Nat → Stream → Nat →
    Except IoError Nat × Nat × Stream
  | 0, _, pos, w, total => (.ok total, pos, w)
  | fuel+1, resp, pos, w, total =>
    match (resp.drop pos).take 8192 with
    | [] => (.ok total, pos, w)
    | b :: chunk =>
      match writeAll w (b :: chunk) with
      | (.ok _, w') =>
        respCopyF fuel resp (pos + (b :: chunk).length) w' (total + (b :: chunk).length)
      | (.error e, w') => (.error e, pos + (b :: chunk).length, w')

/-- `io::copy(&mut cursor, &mut stream)` as used by `ResponseHandler`. -/
def respCopy (resp : List Nat) (pos : Nat) (w : Stream) :
    Except IoError Nat × Nat × Stream :=
  respCopyF (resp.length - pos + 1) resp pos w 0

/-- Outcome of `ResponseHandler::poll`. -/
inductive RespOut where
  | done (s : Stream)
  | notDone (h : RespH)
  /-- `io::copy` failed; the `?` propagates the error, the handler keeps
  the stream and the advanced cursor. -/
  | fatal (e : IoError) (h : RespH)
deriving DecidableEq

/-- `ResponseHandler::poll`: copy the remaining response bytes; `Ok(0)`
(cursor already at the end) transfers the stream out as `Done`. -/
def responseHandlerPoll (h : RespH) : RespOut :=
  match respCopy h.resp h.pos h.stream with
  | (.ok n, pos', s') =>
    if n = 0 then .done s' else .notDone ⟨s', pos', h.resp⟩
  | (.error e, pos', s') => .fatal e ⟨s', pos', h.resp⟩

/-- `HTTP/1.1 200 OK\r\n\r\n`. -/
def resp200 : List Nat :=
  [72, 84, 84, 80, 47, 49, 46, 49, 32, 50, 48, 48, 32, 79, 75, 13, 10, 13, 10]

/-- `HTTP/1.1 404 Not Found\r\n\r\n`. -/
def resp404 : List Nat :=
  [72, 84, 84, 80, 47, 49, 46, 49, 32, 52, 48, 52, 32, 78, 111, 116, 32, 70,
   111, 117, 110, 100, 13, 10, 13, 10]

/-- `ConnectionState` from `connection.rs`.  `inside` is always the client
stream `S`, `outside` the upstream stream `U`, matching the binder names in
`Connection::poll`. -/
inductive ConnState where
  | request (h : ReqH)
  | response (h : RespH)
  | acceptingProxyRequest (h : RespH) (upstream : Stream)
  | tunnellingWrite (outside : Stream) (inside : Stream)
  | tunnellingRead (inside : Stream) (outside : Stream)
  | done
deriving DecidableEq

/-- Result of one `Connection::poll` call: `next` continues with the
replaced state (`Ok(None)` in the source), `finished` returns the stream to
the caller (`Ok(Some(stream))`), `panicked` is `poll` on `Done`.  `dialed`
logs every invocation of the upstream dial capability made during the call.
`Connection::poll` never returns `Err`: every handler error lands in a
catch-all arm that returns the stream. -/
inductive StepOut where
  | next (st : ConnState) (dialed : List (List Nat))
  | finished (s : Stream) (dialed : List (List Nat))
  | panicked
deriving DecidableEq

/-- `Connection::poll`, with the dial capability `dial` standing for the
caller-supplied `upstream_fn`. -/
def connPoll (dial : List Nat → Stream) (st : ConnState) : StepOut :=
  match st with
  | .request h =>
    match requestHandlerPoll h with
    | .moreData h' => .next (.request h') []
    | .wantsProxy dest s =>
      .next (.acceptingProxyRequest ⟨s, 0, resp200⟩ (dial dest)) [dest]
    | .wantsResource _ s => .next (.response ⟨s, 0, resp404⟩) []
    | .invalid h' => .finished h'.stream []
    | .fatal _ h' => .finished h'.stream []
    | .panicked => .panicked
  | .response h =>
    match responseHandlerPoll h with
    | .done s => .finished s []
    | .notDone h' => .next (.response h') []
    | .fatal _ h' => .finished h'.stream []
  | .acceptingProxyRequest h upstream =>
    match responseHandlerPoll h with
    | .done s => .next (.tunnellingRead s upstream) []
    | .notDone h' => .next (.acceptingProxyRequest h' upstream) []
    | .fatal _ h' => .finished h'.stream []
  | .tunnellingRead inside outside =>
    let o := ioCopy inside outside
    match o.res with
    | .ok n => if n = 0 then .finished o.r [] else .next (.tunnellingRead o.r o.w) []
    | .error .wouldBlock => .next (.tunnellingWrite o.w o.r) []
    | .error _ => .finished o.r []
  | .tunnellingWrite outside inside =>
    let o := ioCopy outside inside
    match o.res with
    | .ok n => if n = 0 then .finished o.w [] else .next (.tunnellingWrite o.r o.w) []
    | .error .wouldBlock => .next (.tunnellingRead o.w o.r) []
    | .error _ => .finished o.w []
  | .done => .panicked

/-- Result of driving `Connection::poll` a bounded number of times. -/
inductive RunOut where
  | finished (s : Stream) (dialed : List (List Nat))
  | running (st : ConnState) (dialed : List (List Nat))
  | panicked (dialed : List (List Nat))
deriving DecidableEq

/-- Drive `Connection::poll` up to `fuel` times, accumulating the dial
log, as the external driver loop does. -/
def runConn (dial : List Nat → Stream) : Nat → ConnState → List (List Nat) → RunOut
  | 0, st, log => .running st log
  | fuel+1, st, log =>
    match connPoll dial st with
    | .next st' d => runConn dial fuel st' (log ++ d)
    | .finished s d => .finished s (log ++ d)
    | .panicked => .panicked log

/-- Drive `RequestHandler::poll` up to `fuel` times, stopping at the first
outcome other than `MoreDataRequired` (out of fuel reports the handler as
still needing data). -/
def runRH : Nat → ReqH → RHOut
  | 0, h => .moreData h
  | fuel+1, h =>
    match requestHandlerPoll h with
    | .moreData h' => runRH fuel h'
    | r => r

/-! ## Concrete fixtures and observation helpers used by the theorems -/

/-- The dial log of a poll outcome. -/
def dialedOf : StepOut → List (List Nat)
  | .next _ d => d
  | .finished _ d => d
  | .panicked => []

/-- A stream with nothing to read, accepting every write. -/
def emptyStream : Stream := ⟨[], [], []⟩

/-- A dial capability returning an exhausted upstream. -/
def noDial : List Nat → Stream := fun _ => emptyStream

/-- `CONNECT example.com:443 HTTP/1.1\r\n\r\n`. -/
def connectReq : List Nat :=
  [67, 79, 78, 78, 69, 67, 84, 32, 101, 120, 97, 109, 112, 108, 101, 46, 99,
   111, 109, 58, 52, 52, 51, 32, 72, 84, 84, 80, 47, 49, 46, 49, 13, 10, 13, 10]

/-- `example.com:443`. -/
def destBytes : List Nat :=
  [101, 120, 97, 109, 112, 108, 101, 46, 99, 111, 109, 58, 52, 52, 51]

/-- `GET /anything HTTP/1.1\r\n\r\n`. -/
def getReq : List Nat :=
  [71, 69, 84, 32, 47, 97, 110, 121, 116, 104, 105, 110, 103, 32, 72, 84, 84,
   80, 47, 49, 46, 49, 13, 10, 13, 10]

/-- `FROBNICATE / HTTP/1.1\r\n\r\n`. -/
def frobReq : List Nat :=
  [70, 82, 79, 66, 78, 73, 67, 65, 84, 69, 32, 47, 32, 72, 84, 84, 80, 47, 49,
   46, 49, 13, 10, 13, 10]

/-- `Hello, World!`. -/
def helloBytes : List Nat :=
  [72, 101, 108, 108, 111, 44, 32, 87, 111, 114, 108, 100, 33]

/-- A dial capability whose upstream delivers `Hello, World!` then EOF. -/
def dialHello : List Nat → Stream := fun _ => ⟨[.chunk helloBytes], [], []⟩

/-- Modelled from the spec: a header span "begins with a blank line" when
its first byte is already a line terminator (CR or LF). -/
def beginsWithBlankLine : List Nat → Bool
  | [] => false
  | b :: _ => isNl b

/-- All bytes a read script will ever deliver, in order (would-block and
error events deliver none). -/
def flatReads (evs : List ReadEv) : List Nat :=
  (evs.map (fun e => match e with | .chunk bs => bs | _ => [])).flatten

/-- Fidelity observation for the tunnel phase, relative to the streams
`c` (client) and `u` (upstream) it started from: the machine is still in a
tunnel state, and the bytes appended to each side's `written` are exactly
the bytes consumed so far from the other side's read script, in order. -/
def tunnelFidelity (c u : Stream) (st : ConnState) : Prop :=
  ∃ c' u', (st = .tunnellingRead c' u' ∨ st = .tunnellingWrite u' c') ∧
    c'.wscript = [] ∧ u'.wscript = [] ∧
    (∃ d, u'.written = u.written ++ d ∧ d ++ flatReads c'.reads = flatReads c.reads) ∧
    (∃ e, c'.written = c.written ++ e ∧ e ++ flatReads u'.reads = flatReads u.reads)

/-- A well-formed request assembled from its protocol-line tokens and the
raw header block `rest`: `method SP path SP version CRLF rest`. -/
def mkData (m p v rest : List Nat) : List Nat :=
  m ++ 32 :: (p ++ 32 :: (v ++ 13 :: 10 :: rest))

/-- The read script delivering `data` one byte per read, as the `Trickle`
test stream does. -/
def oneByteEvents (data : List Nat) : List ReadEv :=
  data.map (fun b => .chunk [b])

/-- A request classification with the streams forgotten, for comparing runs
over different stream scripts. -/
inductive Classified where
  | moreData
  | proxy (dest : List Nat)
  | resource (path : List Nat)
  | invalid
  | failed (e : IoError)
  | panicked
deriving DecidableEq

/-- Forget the stream/handler component of a `RequestHandler::poll`
outcome. -/
def classifyOut : RHOut → Classified
  | .moreData _ => .moreData
  | .wantsProxy d _ => .proxy d
  | .wantsResource p _ => .resource p
  | .invalid _ => .invalid
  | .fatal e _ => .failed e
  | .panicked => .panicked

/-- The classification a completed parse with method token `m` and path
token `p` produces. -/
def expectedClass (m p : List Nat) : Classified :=
  match methodFrom m with
  | .connect => .proxy p
  | .get => .resource p
  | _ => .invalid

/-- `a: b\r\n`. -/
def exampleHeaderLine : List Nat := [97, 58, 32, 98, 13, 10]

/-- A header block of `n` copies of `a: b\r\n` followed by the blank
line. -/
def hdrBlock : Nat → List Nat
  | 0 => [13, 10]
  | n+1 => exampleHeaderLine ++ hdrBlock n

/-- `GET / HTTP/1.1\r\n` followed by `n` headers and the blank line. -/
def reqWithHeaders (n : Nat) : List Nat :=
  [71, 69, 84, 32, 47, 32, 72, 84, 84, 80, 47, 49, 46, 49, 13, 10] ++ hdrBlock n

/-! ## Theorems about the claims -/

/-- C9: if a read from the client stream returns zero bytes with no error,
`RequestHandler::poll` fails with the fatal `UnexpectedEof` error and the
connection machine aborts, returning the stream; in particular a connection
delivering EOF before any data yields this on its first poll rather than
"more data required". -/
theorem c9_immediate_eof (dial : List Nat → Stream) (s : Stream) (buf : List Nat)
    (heof : s.reads = [] ∨ ∃ rest, s.reads = .chunk [] :: rest) :
    ∃ s', requestHandlerPoll ⟨s, buf⟩ = .fatal .unexpectedEof ⟨s', buf⟩ ∧
      connPoll dial (.request ⟨s, buf⟩) = .finished s' [] := by
  have hread : ∃ s', streamRead s 512 = (.ok [], s') := by
    rcases heof with h | ⟨rest, h⟩
    · exact ⟨s, by simp [streamRead, h]⟩
    · exact ⟨{ s with reads := rest }, by simp [streamRead, h]⟩
  rcases hread with ⟨s', hs'⟩
  refine ⟨s', ?_, ?_⟩ <;>
    simp [connPoll, requestHandlerPoll, read_into, hs']

/-- C9 witness: an immediately-closed connection aborts with
`UnexpectedEof` on its very first poll. -/
theorem c9_immediate_eof_witness :
    ∃ s', requestHandlerPoll ⟨emptyStream, []⟩ = .fatal .unexpectedEof ⟨s', []⟩ ∧
      connPoll noDial (.request ⟨emptyStream, []⟩) = .finished s' [] :=
  c9_immediate_eof noDial emptyStream [] (Or.inl rfl)

/-- C2 (counterexample): with the 404 response queued and a client stream
whose next write would block, `ResponseHandler::poll` propagates the
would-block as an error (it does not report "not done"), and
`Connection::poll` terminates the connection, returning the stream with no
response byte written — the claim's "returns continue with the same state
retained" and "never terminates the connection" are both false. -/
theorem c2_counterexample :
    responseHandlerPoll ⟨⟨[], [.block], []⟩, 0, resp404⟩
      = .fatal .wouldBlock ⟨⟨[], [], []⟩, 26, resp404⟩ ∧
    connPoll noDial (.response ⟨⟨[], [.block], []⟩, 0, resp404⟩)
      = .finished ⟨[], [], []⟩ [] := by decide

/-- C2 (amended): whenever `io::copy` inside `ResponseHandler::poll` fails
— a would-block write included — the error propagates out of the handler
and the connection machine terminates in both response-writing states,
returning the stream to the caller; the write does not resume on a later
call.  (`Connection::poll` itself still returns no error: the failure lands
in its catch-all arm.) -/
theorem c2_amended (dial : List Nat → Stream) (u : Stream) (h h' : RespH)
    (e : IoError) (hpoll : responseHandlerPoll h = .fatal e h') :
    connPoll dial (.response h) = .finished h'.stream [] ∧
    connPoll dial (.acceptingProxyRequest h u) = .finished h'.stream [] := by
  constructor <;> simp [connPoll, hpoll]

/-- C2 witness: a would-block while streaming the 200-OK accept response
terminates the connection from `AcceptingProxyRequest`. -/
theorem c2_amended_witness :
    connPoll noDial
      (.acceptingProxyRequest ⟨⟨[], [.block], []⟩, 0, resp200⟩ emptyStream)
      = .finished ⟨[], [], []⟩ [] :=
  (c2_amended noDial emptyStream ⟨⟨[], [.block], []⟩, 0, resp200⟩
    ⟨⟨[], [], []⟩, 19, resp200⟩ .wouldBlock (by decide)).2

/-- C4: a request classified as GET moves the machine to the `Response`
state with exactly the bytes `HTTP/1.1 404 Not Found\r\n\r\n` queued and no
dial, and the concrete run on `GET /anything HTTP/1.1\r\n\r\n` finishes
with exactly those bytes written to the client, an empty dial log, and the
client stream returned to the caller. -/
theorem c4_resource_rejection :
    (∀ (dial : List Nat → Stream) (h : ReqH) (path : List Nat) (s : Stream),
      requestHandlerPoll h = .wantsResource path s →
      connPoll dial (.request h) = .next (.response ⟨s, 0, resp404⟩) []) ∧
    runConn noDial 3 (.request ⟨⟨[.chunk getReq], [], []⟩, []⟩) []
      = .finished ⟨[], [], resp404⟩ [] := by
  refine ⟨fun dial h path s hp => ?_, by decide⟩
  simp [connPoll, hp]

/-- C4 witness: the GET example classifies as a resource request and queues
the 404 response. -/
theorem c4_witness :
    connPoll noDial (.request ⟨⟨[.chunk getReq], [], []⟩, []⟩)
      = .next (.response ⟨⟨[], [], []⟩, 0, resp404⟩) [] :=
  c4_resource_rejection.1 noDial ⟨⟨[.chunk getReq], [], []⟩, []⟩
    [47, 97, 110, 121, 116, 104, 105, 110, 103] ⟨[], [], []⟩ (by decide)

/-- C3: a request classified as CONNECT makes `Connection::poll` invoke the
dial capability exactly once with exactly the classified destination (the
request's path token), queueing exactly `HTTP/1.1 200 OK\r\n\r\n` towards
the client; no other state ever dials; and the concrete run on
`CONNECT example.com:443 HTTP/1.1\r\n\r\n` finishes with dial log exactly
`["example.com:443"]` and the client's written bytes exactly the 200-OK
response followed by the upstream payload — the accept response precedes
every tunnel byte. -/
theorem c3_tunnel_handshake :
    (∀ (dial : List Nat → Stream) (h : ReqH) (dest : List Nat) (s : Stream),
      requestHandlerPoll h = .wantsProxy dest s →
      connPoll dial (.request h)
        = .next (.acceptingProxyRequest ⟨s, 0, resp200⟩ (dial dest)) [dest]) ∧
    (∀ (dial : List Nat → Stream) (h : RespH) (u i o : Stream),
      dialedOf (connPoll dial (.response h)) = [] ∧
      dialedOf (connPoll dial (.acceptingProxyRequest h u)) = [] ∧
      dialedOf (connPoll dial (.tunnellingRead i o)) = [] ∧
      dialedOf (connPoll dial (.tunnellingWrite o i)) = [] ∧
      dialedOf (connPoll dial .done) = []) ∧
    runConn dialHello 6 (.request ⟨⟨[.chunk connectReq, .block], [], []⟩, []⟩) []
      = .finished ⟨[], [], resp200 ++ helloBytes⟩ [destBytes] := by
  refine ⟨fun dial h dest s hp => by simp [connPoll, hp], ?_, by decide⟩
  intro dial h u i o
  refine ⟨?_, ?_, ?_, ?_, rfl⟩
  · cases hr : responseHandlerPoll h <;> simp [connPoll, hr, dialedOf]
  · cases hr : responseHandlerPoll h <;> simp [connPoll, hr, dialedOf]
  · cases hr : (ioCopy i o).res with
    | ok n => cases n <;> simp [connPoll, hr, dialedOf]
    | error e => cases e <;> simp [connPoll, hr, dialedOf]
  · cases hr : (ioCopy o i).res with
    | ok n => cases n <;> simp [connPoll, hr, dialedOf]
    | error e => cases e <;> simp [connPoll, hr, dialedOf]

/-- C3 witness: the CONNECT example dials `example.com:443` and queues the
200-OK response. -/
theorem c3_witness :
    connPoll dialHello (.request ⟨⟨[.chunk connectReq, .block], [], []⟩, []⟩)
      = .next (.acceptingProxyRequest ⟨⟨[.block], [], []⟩, 0, resp200⟩
          ⟨[.chunk helloBytes], [], []⟩) [destBytes] :=
  c3_tunnel_handshake.1 dialHello ⟨⟨[.chunk connectReq, .block], [], []⟩, []⟩
    destBytes ⟨[.block], [], []⟩ (by decide)

/-- Dropping a while-prefix never lengthens a list. -/
theorem length_dropWhile_le (p : Nat → Bool) (l : List Nat) :
    (l.dropWhile p).length ≤ l.length := by
  induction l with
  | nil => simp
  | cons a l ih =>
    rw [List.dropWhile_cons]
    split
    · exact Nat.le_trans ih (by simp)
    · simp

/-- The head surviving a `dropWhile` fails the predicate. -/
theorem dropWhile_head_false {p : Nat → Bool} {l : List Nat} {b : Nat}
    {r : List Nat} (h : l.dropWhile p = b :: r) : p b = false := by
  have h2 : l.dropWhile p ≠ [] := by simp [h]
  have h3 := List.head_dropWhile_not p l h2
  simpa [h] using h3

/-- A successful colon split decomposes the input, and the tail starts with
the `:` byte. -/
theorem header_sep_some {s n t : List Nat}
    (h : split_at_first_header_separator s = some (n, t)) :
    s = n ++ t ∧ ∃ r, t = 58 :: r := by
  unfold split_at_first_header_separator at h
  split at h
  case isFalse => exact absurd h (by simp)
  case isTrue hany =>
    simp only [Option.some.injEq, Prod.mk.injEq] at h
    obtain ⟨hn, ht⟩ := h
    subst hn; subst ht
    refine ⟨(List.takeWhile_append_dropWhile _ _).symm, ?_⟩
    cases hd : s.dropWhile (fun b => !(b == 58)) with
    | nil =>
      rw [List.dropWhile_eq_nil_iff] at hd
      obtain ⟨x, hx, hx58⟩ := List.any_eq_true.mp hany
      have hpx := hd x hx
      simp only [beq_iff_eq] at hx58
      subst hx58
      simp at hpx
    | cons b r =>
      have hb := dropWhile_head_false hd
      simp only [Bool.not_eq_false', beq_iff_eq] at hb
      subst hb
      exact ⟨r, rfl⟩

/-- A colon-free span makes the colon split fail. -/
theorem header_sep_none {s : List Nat} (h : ¬ 58 ∈ s) :
    split_at_first_header_separator s = none := by
  unfold split_at_first_header_separator
  rw [if_neg]
  simp only [List.any_eq_true, beq_iff_eq, not_exists, not_and]
  rintro x hx rfl
  exact h hx

/-- C5 (counterexample): the Header-Field Parser returns the end-of-headers
sentinel (the empty `Header`) for the span `Hi`, which does not begin with
a blank line — the claimed "if and only if the span begins with a blank
line" is false (the source condition is the absence of a `:` byte). -/
theorem c5_counterexample :
    headerParse [72, 105] = some (⟨[], []⟩, [72, 105]) ∧
    beginsWithBlankLine [72, 105] = false := by decide

/-- C5 (amended): the Header-Field Parser returns the empty-`Header`
sentinel with remainder "the span minus its leading CR/LF run" exactly when
the span contains no `:` byte; a span containing `:` is parsed as a
name/value pair split at the first `:` (or reported incomplete when no
newline follows), never as that sentinel/remainder combination. -/
theorem c5_amended (s : List Nat) :
    headerParse s = some (⟨[], []⟩, skip_newline s) ↔ ¬ 58 ∈ s := by
  constructor
  · intro h hmem
    cases hsplit : split_at_first_header_separator s with
    | none =>
      unfold split_at_first_header_separator at hsplit
      rw [if_pos] at hsplit
      · exact absurd hsplit (by simp)
      · exact List.any_eq_true.mpr ⟨58, hmem, by simp⟩
    | some nt =>
      obtain ⟨n, t⟩ := nt
      obtain ⟨hs_eq, r, ht⟩ := header_sep_some hsplit
      simp only [headerParse, hsplit] at h
      cases hnl : split_as_first_newline (skip_header_separator t) with
      | none => rw [hnl] at h; exact absurd h (by simp)
      | some vt₂ =>
        obtain ⟨v, t₂⟩ := vt₂
        rw [hnl] at h
        simp only [Option.some.injEq, Prod.mk.injEq, Header.mk.injEq] at h
        obtain ⟨⟨hn, hv⟩, hrem⟩ := h
        -- with an empty name the whole span starts at the colon
        have hs_t : s = 58 :: r := by rw [hs_eq, hn, ht]; rfl
        -- the left side of `hrem` is strictly shorter than the right side
        have ht₂ : t₂ = (skip_header_separator t).dropWhile (fun b => !isNl b) := by
          unfold split_as_first_newline at hnl
          split at hnl
          · simp only [Option.some.injEq, Prod.mk.injEq] at hnl
            exact hnl.2.symm
          · exact absurd hnl (by simp)
        have hlen₁ : t₂.length ≤ (skip_header_separator t).length := by
          rw [ht₂]; exact length_dropWhile_le _ _
        have hlen₂ : (skip_header_separator t).length ≤ r.length := by
          rw [ht]
          unfold skip_header_separator
          rw [List.dropWhile_cons, if_pos (by simp [isSep])]
          exact length_dropWhile_le _ _
        have hlen₃ : (skip_newline t₂).length ≤ r.length :=
          Nat.le_trans (Nat.le_trans (length_dropWhile_le _ _) hlen₁) hlen₂
        have hsn : skip_newline s = s := by
          rw [hs_t]
          unfold skip_newline
          rw [List.dropWhile_cons, if_neg (by simp [isNl])]
        rw [hsn, hs_t] at hrem
        have := congrArg List.length hrem
        simp only [List.length_cons] at this
        omega
  · intro h
    rw [headerParse, header_sep_none h]

/-- A successful scripted read never exceeds the read buffer. -/
theorem streamRead_ok_len {s : Stream} {cap : Nat} {bs : List Nat} {s' : Stream}
    (h : streamRead s cap = (.ok bs, s')) : bs.length ≤ cap := by
  unfold streamRead at h
  split at h
  · simp only [Prod.mk.injEq, Except.ok.injEq] at h
    simp [← h.1]
  · simp only [Prod.mk.injEq, Except.ok.injEq] at h
    rw [← h.1]
    simp [List.length_take]
  · exact absurd h (by simp)
  · exact absurd h (by simp)

/-- Every read attempt logged by the `io::copy` loop is bounded by its
8192-byte buffer. -/
theorem ioCopyF_attempts_le :
    ∀ (fuel : Nat) (r w : Stream) (total : Nat) (att : List Nat),
      (∀ a ∈ att, a ≤ 8192) →
      ∀ a ∈ (ioCopyF fuel r w total att).attempts, a ≤ 8192 := by
  intro fuel
  induction fuel with
  | zero => intro r w total att hatt; simpa [ioCopyF] using hatt
  | succ n ih =>
    intro r w total att hatt
    rw [ioCopyF]
    cases hr : streamRead r 8192 with
    | mk res r' =>
      cases res with
      | error e => dsimp only; simpa using hatt
      | ok bs =>
        cases bs with
        | nil => dsimp only; simpa using hatt
        | cons b bs' =>
          have hlen : (b :: bs').length ≤ 8192 := streamRead_ok_len hr
          have hatt' : ∀ a ∈ att ++ [(b :: bs').length], a ≤ 8192 := by
            intro a ha
            rcases List.mem_append.mp ha with h | h
            · exact hatt a h
            · rw [List.mem_singleton.mp h]; exact hlen
          dsimp only
          cases hw : writeAll w (b :: bs') with
          | mk wres w' =>
            cases wres with
            | ok u => exact ih r' w' _ _ hatt'
            | error e => dsimp only; simpa using hatt'

set_option maxRecDepth 4000 in
/-- C8 (counterexample): in a tunnelling state a single poll relays a
600-byte chunk in one read attempt of the copy loop — more than 512 bytes
in one attempt — so tunnel copying is not chunked at 512 bytes. -/
theorem c8_counterexample :
    (ioCopy ⟨[.chunk (List.replicate 600 65)], [], []⟩ emptyStream).attempts
      = [600] ∧
    connPoll noDial
      (.tunnellingRead ⟨[.chunk (List.replicate 600 65)], [], []⟩ emptyStream)
      = .next (.tunnellingRead ⟨[], [], []⟩ ⟨[], [], List.replicate 600 65⟩) [] ∧
    ¬ (600 ≤ 512) := by decide

/-- C8 (amended): tunnel copying delegates to `std::io::copy`, whose read
attempts are bounded by its 8192-byte buffer (not 512), continuing until a
would-block, EOF, or another error; the 512-byte bound belongs to the
request-phase `read_into` scratch buffer. -/
theorem c8_amended :
    (∀ (r w : Stream) (a : Nat), a ∈ (ioCopy r w).attempts → a ≤ 8192) ∧
    (∀ (s : Stream) (bs : List Nat) (s' : Stream),
      streamRead s 512 = (.ok bs, s') → bs.length ≤ 512) :=
  ⟨fun r w a ha => ioCopyF_attempts_le _ r w 0 [] (by simp) a ha,
   fun _ _ _ h => streamRead_ok_len h⟩

set_option maxRecDepth 4000 in
/-- C8 witness: the 600-byte attempt of the counterexample stream is within
the 8192-byte bound. -/
theorem c8_amended_witness : (600 : Nat) ≤ 8192 :=
  c8_amended.1 ⟨[.chunk (List.replicate 600 65)], [], []⟩ emptyStream 600 (by decide)

/-- `methodFrom` as a first-match cascade over the lower-cased candidate
byte strings, in source order. -/
theorem methodFrom_eq (bs : List Nat) :
    methodFrom bs =
      (if [99, 111, 110, 110, 101, 99, 116] = bs.map to_lower then .connect
       else if [103, 101, 116] = bs.map to_lower then .get
       else if [112, 111, 115, 116] = bs.map to_lower then .post
       else if [112, 117, 116] = bs.map to_lower then .put
       else if [100, 101, 108, 101, 116, 101] = bs.map to_lower then .delete
       else if [112, 97, 116, 99, 104] = bs.map to_lower then .patch
       else if [104, 101, 97, 100] = bs.map to_lower then .head
       else .other bs) := by
  have e0 : List.map to_lower [99, 111, 110, 110, 101, 99, 116] = [99, 111, 110, 110, 101, 99, 116] := by decide
  have e1 : List.map to_lower [71, 101, 116] = [103, 101, 116] := by decide
  have e2 : List.map to_lower [80, 111, 115, 116] = [112, 111, 115, 116] := by decide
  have e3 : List.map to_lower [80, 117, 116] = [112, 117, 116] := by decide
  have e4 : List.map to_lower [68, 101, 108, 101, 116, 101] = [100, 101, 108, 101, 116, 101] := by decide
  have e5 : List.map to_lower [80, 97, 116, 99, 104] = [112, 97, 116, 99, 104] := by decide
  have e6 : List.map to_lower [72, 101, 97, 100] = [104, 101, 97, 100] := by decide
  simp only [methodFrom, which_of, methodCandidates, whichOfFrom, e0, e1, e2, e3, e4, e5, e6]
  split_ifs <;> rfl

/-- C10: method classification lower-cases both the request's method token
and each candidate byte-by-byte — a token classifies as each of the seven
methods exactly when its lower-casing equals that candidate's lower-casing
(so every case variant of `CONNECT` is a tunnel request, and likewise for
the other six); a token matching no candidate yields `Other` carrying the
original bytes verbatim; and such a request (`FROBNICATE / HTTP/1.1`)
closes the connection without any response bytes written and without
dialling. -/
theorem c10_method_classification :
    (∀ bs : List Nat,
      (methodFrom bs = .connect ↔ bs.map to_lower = [99, 111, 110, 110, 101, 99, 116]) ∧
      (methodFrom bs = .get ↔ bs.map to_lower = [103, 101, 116]) ∧
      (methodFrom bs = .post ↔ bs.map to_lower = [112, 111, 115, 116]) ∧
      (methodFrom bs = .put ↔ bs.map to_lower = [112, 117, 116]) ∧
      (methodFrom bs = .delete ↔ bs.map to_lower = [100, 101, 108, 101, 116, 101]) ∧
      (methodFrom bs = .patch ↔ bs.map to_lower = [112, 97, 116, 99, 104]) ∧
      (methodFrom bs = .head ↔ bs.map to_lower = [104, 101, 97, 100])) ∧
    (∀ bs : List Nat,
      (∀ c ∈ methodCandidates, c.map to_lower ≠ bs.map to_lower) →
      methodFrom bs = .other bs) ∧
    runConn noDial 1 (.request ⟨⟨[.chunk frobReq], [], []⟩, []⟩) []
      = .finished ⟨[], [], []⟩ [] := by
  refine ⟨?_, ?_, by decide⟩
  · intro bs
    rw [methodFrom_eq]
    split_ifs with g0 g1 g2 g3 g4 g5 g6
    · simp only [← g0]; decide
    · simp only [← g1]; decide
    · simp only [← g2]; decide
    · simp only [← g3]; decide
    · simp only [← g4]; decide
    · simp only [← g5]; decide
    · simp only [← g6]; decide
    · -- no candidate matches: every right-hand side is false too
      have m0 : ¬(List.map to_lower bs = [99, 111, 110, 110, 101, 99, 116]) := fun h => g0 h.symm
      have m1 : ¬(List.map to_lower bs = [103, 101, 116]) := fun h => g1 h.symm
      have m2 : ¬(List.map to_lower bs = [112, 111, 115, 116]) := fun h => g2 h.symm
      have m3 : ¬(List.map to_lower bs = [112, 117, 116]) := fun h => g3 h.symm
      have m4 : ¬(List.map to_lower bs = [100, 101, 108, 101, 116, 101]) := fun h => g4 h.symm
      have m5 : ¬(List.map to_lower bs = [112, 97, 116, 99, 104]) := fun h => g5 h.symm
      have m6 : ¬(List.map to_lower bs = [104, 101, 97, 100]) := fun h => g6 h.symm
      simp [m0, m1, m2, m3, m4, m5, m6]
  · intro bs h
    have m0 : ¬([99, 111, 110, 110, 101, 99, 116] = List.map to_lower bs) := fun hEq =>
      (h [99, 111, 110, 110, 101, 99, 116] (by decide)) ((by decide : List.map to_lower [99, 111, 110, 110, 101, 99, 116] = [99, 111, 110, 110, 101, 99, 116]).trans hEq)
    have m1 : ¬([103, 101, 116] = List.map to_lower bs) := fun hEq =>
      (h [71, 101, 116] (by decide)) ((by decide : List.map to_lower [71, 101, 116] = [103, 101, 116]).trans hEq)
    have m2 : ¬([112, 111, 115, 116] = List.map to_lower bs) := fun hEq =>
      (h [80, 111, 115, 116] (by decide)) ((by decide : List.map to_lower [80, 111, 115, 116] = [112, 111, 115, 116]).trans hEq)
    have m3 : ¬([112, 117, 116] = List.map to_lower bs) := fun hEq =>
      (h [80, 117, 116] (by decide)) ((by decide : List.map to_lower [80, 117, 116] = [112, 117, 116]).trans hEq)
    have m4 : ¬([100, 101, 108, 101, 116, 101] = List.map to_lower bs) := fun hEq =>
      (h [68, 101, 108, 101, 116, 101] (by decide)) ((by decide : List.map to_lower [68, 101, 108, 101, 116, 101] = [100, 101, 108, 101, 116, 101]).trans hEq)
    have m5 : ¬([112, 97, 116, 99, 104] = List.map to_lower bs) := fun hEq =>
      (h [80, 97, 116, 99, 104] (by decide)) ((by decide : List.map to_lower [80, 97, 116, 99, 104] = [112, 97, 116, 99, 104]).trans hEq)
    have m6 : ¬([104, 101, 97, 100] = List.map to_lower bs) := fun hEq =>
      (h [72, 101, 97, 100] (by decide)) ((by decide : List.map to_lower [72, 101, 97, 100] = [104, 101, 97, 100]).trans hEq)
    rw [methodFrom_eq]
    simp [m0, m1, m2, m3, m4, m5, m6]

/-- C10 witness: `FROBNICATE` matches no candidate and classifies as
`Other` preserving its original casing. -/
theorem c10_witness :
    methodFrom [70, 82, 79, 66, 78, 73, 67, 65, 84, 69]
      = .other [70, 82, 79, 66, 78, 73, 67, 65, 84, 69] :=
  c10_method_classification.2.1 _ (by decide)

/-- A parsed non-sentinel header consumes at least its `:` byte, so the
remainder is strictly shorter. -/
theorem headerParse_some_lt {data : List Nat} {hd : Header} {t : List Nat}
    (h : headerParse data = some (hd, t)) (hname : hd.name ≠ []) :
    t.length < data.length := by
  cases hsplit : split_at_first_header_separator data with
  | none =>
    simp only [headerParse, hsplit, Option.some.injEq, Prod.mk.injEq] at h
    exact absurd (congrArg Header.name h.1.symm) hname
  | some nt =>
    obtain ⟨n, t1⟩ := nt
    obtain ⟨hdata, r, ht1⟩ := header_sep_some hsplit
    simp only [headerParse, hsplit] at h
    cases hnl : split_as_first_newline (skip_header_separator t1) with
    | none => rw [hnl] at h; exact absurd h (by simp)
    | some vt₂ =>
      obtain ⟨v, t₂⟩ := vt₂
      rw [hnl] at h
      simp only [Option.some.injEq, Prod.mk.injEq] at h
      have ht : t = skip_newline t₂ := h.2.symm
      have ht₂ : t₂ = (skip_header_separator t1).dropWhile (fun b => !isNl b) := by
        unfold split_as_first_newline at hnl
        split at hnl
        · simp only [Option.some.injEq, Prod.mk.injEq] at hnl
          exact hnl.2.symm
        · exact absurd hnl (by simp)
      have h1 : t.length ≤ t₂.length := ht ▸ length_dropWhile_le _ _
      have h2 : t₂.length ≤ (skip_header_separator t1).length :=
        ht₂ ▸ length_dropWhile_le _ _
      have h3 : (skip_header_separator t1).length ≤ r.length := by
        rw [ht1]
        unfold skip_header_separator
        rw [List.dropWhile_cons, if_pos (by simp [isSep])]
        exact length_dropWhile_le _ _
      have h4 : r.length < data.length := by
        rw [hdata, ht1]
        simp
        omega
      omega

/-- The header loop is fuel-independent once the fuel exceeds the data
length. -/
theorem headersLoopF_congr :
    ∀ (fuel₁ fuel₂ cap : Nat) (acc : List Header) (data : List Nat),
      data.length < fuel₁ → data.length < fuel₂ →
      headersLoopF fuel₁ cap acc data = headersLoopF fuel₂ cap acc data := by
  intro fuel₁
  induction fuel₁ with
  | zero => intro fuel₂ cap acc data h1 h2; omega
  | succ n ih =>
    intro fuel₂ cap acc data h1 h2
    cases fuel₂ with
    | zero => omega
    | succ m =>
      rw [headersLoopF, headersLoopF]
      cases hp : headerParse data with
      | none => rfl
      | some ht =>
        obtain ⟨hd, t⟩ := ht
        dsimp only
        split_ifs with hn hc
        · rfl
        · rfl
        · have hlt : t.length < data.length :=
            headerParse_some_lt hp (fun hnil => hn (by simp [hnil]))
          exact ih m cap (acc ++ [hd]) t (by omega) (by omega)

/-- One-step unfolding of the header loop. -/
theorem headersLoop_eq (cap : Nat) (acc : List Header) (data : List Nat) :
    headersLoop cap acc data =
      match headerParse data with
      | none => .panicIncomplete
      | some (hd, t) =>
        if hd.name.length = 0 then .complete acc t
        else if cap ≤ acc.length then .panicCapacity
        else headersLoop cap (acc ++ [hd]) t := by
  unfold headersLoop
  rw [headersLoopF]
  cases hp : headerParse data with
  | none => rfl
  | some ht =>
    obtain ⟨hd, t⟩ := ht
    dsimp only
    split_ifs with hn hc
    · rfl
    · rfl
    · have hlt : t.length < data.length :=
        headerParse_some_lt hp (fun hnil => hn (by simp [hnil]))
      exact headersLoopF_congr _ _ cap (acc ++ [hd]) t (by omega) (by omega)

/-- Parsing one header line of the `n+1`-header block yields the `a`/`b`
pair and the rest of the block (the final blank line is absorbed by the
trailing newline skip when no header follows). -/
theorem headerParse_hb_succ (n : Nat) :
    headerParse (hdrBlock (n + 1))
      = some (⟨[97], [98]⟩, if n = 0 then [] else hdrBlock n) := by
  cases n with
  | zero => decide
  | succ m =>
    show headerParse (hdrBlock (m + 1 + 1)) = some (⟨[97], [98]⟩, hdrBlock (m + 1))
    rw [hdrBlock]
    rw [show hdrBlock (m + 1) = 97 :: (58 :: 32 :: 98 :: 13 :: 10 :: hdrBlock m) from by
      rw [hdrBlock]; rfl]
    simp [headerParse, split_at_first_header_separator, skip_header_separator,
      split_as_first_newline, skip_newline, exampleHeaderLine, isNl, isSep,
      List.any_cons, List.takeWhile_cons, List.dropWhile_cons]

/-- A header block of `n` headers fills `n` slots and completes with an
empty body whenever `n` more slots fit. -/
theorem headersLoop_hb :
    ∀ (n cap : Nat) (acc : List Header), acc.length + n ≤ cap →
      headersLoop cap acc (hdrBlock n)
        = .complete (acc ++ List.replicate n ⟨[97], [98]⟩) [] := by
  intro n
  induction n with
  | zero =>
    intro cap acc h
    rw [headersLoop_eq]
    simp [(by decide : headerParse (hdrBlock 0) = some (⟨[], []⟩, []))]
  | succ n ih =>
    intro cap acc h
    rw [headersLoop_eq, headerParse_hb_succ]
    have hc : ¬(cap ≤ acc.length) := by omega
    cases n with
    | zero =>
      simp only [if_pos rfl]
      rw [if_neg (by simp), if_neg hc, headersLoop_eq]
      simp [(by decide : headerParse ([] : List Nat) = some (⟨[], []⟩, []))]
    | succ m =>
      simp only [if_neg (Nat.succ_ne_zero m)]
      rw [if_neg (by simp), if_neg hc,
        ih cap (acc ++ [Header.mk [97] [98]]) (by simp; omega)]
      simp [List.replicate_succ]

/-- A header block with at least one header more than the free capacity
hits the capacity panic. -/
theorem headersLoop_hb_overflow :
    ∀ (n cap : Nat) (acc : List Header), cap < acc.length + n → 1 ≤ n →
      headersLoop cap acc (hdrBlock n) = .panicCapacity := by
  intro n
  induction n with
  | zero => intro cap acc h h1; omega
  | succ n ih =>
    intro cap acc h _
    rw [headersLoop_eq, headerParse_hb_succ]
    by_cases hcap : cap ≤ acc.length
    · cases n <;> simp [hcap]
    · cases n with
      | zero => omega
      | succ m =>
        simp only [if_neg (Nat.succ_ne_zero m)]
        rw [if_neg (by simp), if_neg hcap]
        exact ih cap (acc ++ [Header.mk [97] [98]]) (by simp; omega) (by omega)

/-- The protocol line of the generated request parses to `GET` `/`
`HTTP/1.1` with the header block as remainder. -/
theorem protocolParse_reqWithHeaders (n : Nat) :
    protocolParse (reqWithHeaders n)
      = some ([71, 69, 84], [47], [72, 84, 84, 80, 47, 49, 46, 49],
          if n = 0 then [] else hdrBlock n) := by
  cases n with
  | zero => decide
  | succ m =>
    simp only [if_neg (Nat.succ_ne_zero m)]
    rw [reqWithHeaders,
      show hdrBlock (m + 1) = 97 :: (58 :: 32 :: 98 :: 13 :: 10 :: hdrBlock m) from by
        rw [hdrBlock]; rfl]
    simp [protocolParse, split_at_first_whitespace, skip_whitespace,
      split_as_first_newline, skip_newline, isNl, isWs,
      List.any_cons, List.takeWhile_cons, List.dropWhile_cons]

/-- A completed header loop that started within capacity never returns more
headers than the capacity. -/
theorem headersLoopF_len_le :
    ∀ (fuel cap : Nat) (acc : List Header) (data : List Nat)
      (hs : List Header) (body : List Nat),
      acc.length ≤ cap → headersLoopF fuel cap acc data = .complete hs body →
      hs.length ≤ cap := by
  intro fuel
  induction fuel with
  | zero =>
    intro cap acc data hs body hacc h
    exact absurd h (by simp [headersLoopF])
  | succ n ih =>
    intro cap acc data hs body hacc h
    rw [headersLoopF] at h
    cases hp : headerParse data with
    | none => rw [hp] at h; exact absurd h (by simp)
    | some ht =>
      obtain ⟨hd, t⟩ := ht
      rw [hp] at h
      dsimp only at h
      split_ifs at h with h1 h2
      · simp only [HdrOut.complete.injEq] at h
        rw [← h.1]
        exact hacc
      · exact ih cap (acc ++ [hd]) t hs body (by simp; omega) h

/-- C7: a request with exactly `N` headers parses completely against a
header table of capacity `N` (filling all `N` slots); the same request with
`N + 1` headers against capacity `N` reaches the capacity panic rather than
dropping or truncating headers; and every completed parse returns a filled
header prefix no longer than the table's capacity. -/
theorem c7_header_capacity :
    (∀ n : Nat, httpObjectParse n (reqWithHeaders n)
        = .complete [71, 69, 84] [47] [72, 84, 84, 80, 47, 49, 46, 49]
            (List.replicate n ⟨[97], [98]⟩) []) ∧
    (∀ n : Nat, httpObjectParse n (reqWithHeaders (n + 1)) = .panicCapacity) ∧
    (∀ (cap : Nat) (data part1 part2 part3 : List Nat) (hs : List Header)
        (body : List Nat),
      httpObjectParse cap data = .complete part1 part2 part3 hs body →
      hs.length ≤ cap) := by
  refine ⟨?_, ?_, ?_⟩
  · intro n
    simp only [httpObjectParse, protocolParse_reqWithHeaders]
    cases n with
    | zero =>
      simp only [if_pos rfl]
      rw [headersLoop_eq]
      simp [(by decide : headerParse ([] : List Nat) = some (⟨[], []⟩, []))]
    | succ m =>
      simp only [if_neg (Nat.succ_ne_zero m)]
      rw [headersLoop_hb (m + 1) (m + 1) [] (by simp)]
      simp
  · intro n
    simp only [httpObjectParse, protocolParse_reqWithHeaders,
      if_neg (Nat.succ_ne_zero n)]
    rw [headersLoop_hb_overflow (n + 1) n [] (by simp) (by omega)]
  · intro cap data part1 part2 part3 hs body h
    simp only [httpObjectParse] at h
    cases hpp : protocolParse data with
    | none => rw [hpp] at h; exact absurd h (by simp)
    | some parts =>
      obtain ⟨m', p', v', t'⟩ := parts
      rw [hpp] at h
      dsimp only at h
      cases hhl : headersLoop cap [] t' with
      | complete hs' body' =>
        rw [hhl] at h
        simp only [ObjOut.complete.injEq] at h
        have := headersLoopF_len_le _ cap [] t' hs' body' (by simp) hhl
        rw [h.2.2.2.1] at this
        exact this
      | panicCapacity => rw [hhl] at h; exact absurd h (by simp)
      | panicIncomplete => rw [hhl] at h; exact absurd h (by simp)

/-- C7 witness: one header against capacity one fills exactly one slot,
within capacity. -/
theorem c7_witness : (List.replicate 1 (Header.mk [97] [98])).length ≤ 1 :=
  c7_header_capacity.2.2 1 (reqWithHeaders 1) [71, 69, 84] [47]
    [72, 84, 84, 80, 47, 49, 46, 49] (List.replicate 1 ⟨[97], [98]⟩) []
    (by decide)

/-- A successful read removes the delivered bytes from the front of the
stream's pending bytes and touches nothing else. -/
theorem streamRead_ok_flat {s : Stream} {cap : Nat} {bs : List Nat} {s' : Stream}
    (h : streamRead s cap = (.ok bs, s')) :
    bs ++ flatReads s'.reads = flatReads s.reads ∧
    s'.wscript = s.wscript ∧ s'.written = s.written := by
  cases hr : s.reads with
  | nil =>
    simp only [streamRead, hr, Prod.mk.injEq, Except.ok.injEq] at h
    obtain ⟨h1, h2⟩ := h
    rw [← h1, ← h2]
    simp [hr]
  | cons ev rest =>
    cases ev with
    | chunk c =>
      simp only [streamRead, hr, Prod.mk.injEq, Except.ok.injEq] at h
      obtain ⟨h1, h2⟩ := h
      rw [← h1, ← h2]
      refine ⟨?_, rfl, rfl⟩
      by_cases hk : (c.drop cap).isEmpty
      · simp only [if_pos hk]
        have hdrop : c.drop cap = [] := by simpa [List.isEmpty_iff] using hk
        have hc : c.take cap = c := by
          rw [← List.take_append_drop cap c, hdrop, List.append_nil,
            List.take_take, Nat.min_self]
        simp [flatReads, hr, hc]
      · simp only [if_neg hk]
        simp [flatReads, hr, ← List.append_assoc, List.take_append_drop]
    | block => simp [streamRead, hr] at h
    | ioErr => simp [streamRead, hr] at h

/-- A failed read (would-block or fatal) delivers no bytes and touches
nothing but the consumed script event. -/
theorem streamRead_err_flat {s : Stream} {cap : Nat} {e : IoError} {s' : Stream}
    (h : streamRead s cap = (.error e, s')) :
    flatReads s'.reads = flatReads s.reads ∧
    s'.wscript = s.wscript ∧ s'.written = s.written := by
  cases hr : s.reads with
  | nil => simp [streamRead, hr] at h
  | cons ev rest =>
    cases ev with
    | chunk c => simp [streamRead, hr] at h
    | block =>
      simp only [streamRead, hr, Prod.mk.injEq, Except.error.injEq] at h
      rw [← h.2]
      simp [flatReads, hr]
    | ioErr =>
      simp only [streamRead, hr, Prod.mk.injEq, Except.error.injEq] at h
      rw [← h.2]
      simp [flatReads, hr]

/-- With an exhausted write script, `write_all` accepts the whole buffer in
one write. -/
theorem writeAll_coop (w : Stream) (buf : List Nat) (h : w.wscript = []) :
    writeAll w buf = (.ok (), ⟨w.reads, [], w.written ++ buf⟩) := by
  obtain ⟨reads, ws, written⟩ := w
  subst h
  cases buf <;> simp [writeAll, writeAllFrom]

/-- `io::copy` towards a cooperative writer (exhausted write script): the
writer receives exactly the bytes consumed from the reader's script, in
order, and the reader's write side and the writer's read side are
untouched. -/
theorem ioCopyF_coop :
    ∀ (fuel : Nat) (r w : Stream) (total : Nat) (att : List Nat),
      w.wscript = [] →
      ∃ d, (ioCopyF fuel r w total att).w.written = w.written ++ d ∧
        d ++ flatReads (ioCopyF fuel r w total att).r.reads = flatReads r.reads ∧
        (ioCopyF fuel r w total att).w.wscript = [] ∧
        (ioCopyF fuel r w total att).w.reads = w.reads ∧
        (ioCopyF fuel r w total att).r.written = r.written ∧
        (ioCopyF fuel r w total att).r.wscript = r.wscript := by
  intro fuel
  induction fuel with
  | zero =>
    intro r w total att hw
    exact ⟨[], by simp [ioCopyF], by simp [ioCopyF], by simp [ioCopyF, hw],
      by simp [ioCopyF], by simp [ioCopyF], by simp [ioCopyF]⟩
  | succ n ih =>
    intro r w total att hw
    rw [ioCopyF]
    cases hr : streamRead r 8192 with
    | mk res r' =>
      cases res with
      | error e =>
        obtain ⟨hflat, hws, hwr⟩ := streamRead_err_flat hr
        exact ⟨[], by simp, by simp [hflat], hw, rfl, hwr, hws⟩
      | ok bs =>
        cases bs with
        | nil =>
          obtain ⟨hflat, hws, hwr⟩ := streamRead_ok_flat hr
          exact ⟨[], by simp, by simpa using hflat, hw, rfl, hwr, hws⟩
        | cons b bs' =>
          obtain ⟨hflat, hws, hwr⟩ := streamRead_ok_flat hr
          dsimp only
          rw [writeAll_coop w (b :: bs') hw]
          dsimp only
          obtain ⟨d, hd1, hd2, hd3, hd4, hd5, hd6⟩ :=
            ih r' ⟨w.reads, [], w.written ++ (b :: bs')⟩
              (total + (b :: bs').length) (att ++ [(b :: bs').length]) rfl
          refine ⟨(b :: bs') ++ d, ?_, ?_, hd3, hd4, ?_, ?_⟩
          · rw [hd1]; simp
          · rw [List.append_assoc, hd2, hflat]
          · rw [hd5, hwr]
          · rw [hd6, hws]

/-- `ioCopy` form of `ioCopyF_coop`. -/
theorem ioCopy_coop (r w : Stream) (hw : w.wscript = []) :
    ∃ d, (ioCopy r w).w.written = w.written ++ d ∧
      d ++ flatReads (ioCopy r w).r.reads = flatReads r.reads ∧
      (ioCopy r w).w.wscript = [] ∧
      (ioCopy r w).w.reads = w.reads ∧
      (ioCopy r w).r.written = r.written ∧
      (ioCopy r w).r.wscript = r.wscript :=
  ioCopyF_coop _ r w 0 [] hw

/-- Fidelity relative to intermediate streams composes with the byte
accounting of one more copy step. -/
theorem tunnelFidelity_comp {c u c₀ u₀ : Stream} {st : ConnState}
    (hf : tunnelFidelity c₀ u₀ st)
    (hcu : ∃ d, u₀.written = u.written ++ d ∧
      d ++ flatReads c₀.reads = flatReads c.reads)
    (huc : ∃ e, c₀.written = c.written ++ e ∧
      e ++ flatReads u₀.reads = flatReads u.reads) :
    tunnelFidelity c u st := by
  obtain ⟨c', u', hshape, hcw, huw, ⟨d₂, hd₂1, hd₂2⟩, ⟨e₂, he₂1, he₂2⟩⟩ := hf
  obtain ⟨d₁, hd₁1, hd₁2⟩ := hcu
  obtain ⟨e₁, he₁1, he₁2⟩ := huc
  exact ⟨c', u', hshape, hcw, huw,
    ⟨d₁ ++ d₂, by rw [hd₂1, hd₁1, List.append_assoc],
      by rw [List.append_assoc, hd₂2, hd₁2]⟩,
    ⟨e₁ ++ e₂, by rw [he₂1, he₁1, List.append_assoc],
      by rw [List.append_assoc, he₂2, he₁2]⟩⟩

/-- Driving the machine from a tunnel state over cooperative writers: at
every reachable point the machine is still tunnelling with exact in-order
byte accounting in both directions, and when it finishes it returns the
client stream whose extra written bytes are an in-order prefix of the
upstream's scripted bytes. -/
theorem tunnel_run (dial : List Nat → Stream) :
    ∀ (fuel : Nat) (c u : Stream) (st : ConnState),
      (st = .tunnellingRead c u ∨ st = .tunnellingWrite u c) →
      c.wscript = [] → u.wscript = [] →
      (∀ st' log, runConn dial fuel st [] = .running st' log →
        tunnelFidelity c u st') ∧
      (∀ s log, runConn dial fuel st [] = .finished s log →
        ∃ e rest, s.written = c.written ++ e ∧ e ++ rest = flatReads u.reads) := by
  intro fuel
  induction fuel with
  | zero =>
    intro c u st hst hc hu
    constructor
    · intro st' log hrun
      simp only [runConn, RunOut.running.injEq] at hrun
      rw [← hrun.1]
      exact ⟨c, u, hst, hc, hu, ⟨[], by simp, by simp⟩, ⟨[], by simp, by simp⟩⟩
    · intro s log hrun
      exact absurd hrun (by simp [runConn])
  | succ n ih =>
    intro c u st hst hc hu
    rcases hst with rfl | rfl
    · -- TunnellingRead: io::copy(client, upstream)
      obtain ⟨d, hd1, hd2, hd3, hd4, hd5, hd6⟩ := ioCopy_coop c u hu
      cases hres : (ioCopy c u).res with
      | ok k =>
        cases k with
        | zero =>
          have hpoll : connPoll dial (.tunnellingRead c u)
              = .finished (ioCopy c u).r [] := by
            simp [connPoll, hres]
          constructor
          · intro st' log hrun
            rw [runConn, hpoll] at hrun
            exact absurd hrun (by simp)
          · intro s log hrun
            rw [runConn, hpoll] at hrun
            simp only [RunOut.finished.injEq] at hrun
            exact ⟨[], flatReads u.reads, by simp [← hrun.1, hd5], by simp⟩
        | succ m =>
          have hpoll : connPoll dial (.tunnellingRead c u)
              = .next (.tunnellingRead (ioCopy c u).r (ioCopy c u).w) [] := by
            simp [connPoll, hres]
          have hrec := ih (ioCopy c u).r (ioCopy c u).w
            (.tunnellingRead (ioCopy c u).r (ioCopy c u).w) (Or.inl rfl)
            (hd6.trans hc) hd3
          have hstep : runConn dial (n + 1) (.tunnellingRead c u) []
              = runConn dial n
                  (.tunnellingRead (ioCopy c u).r (ioCopy c u).w) [] := by
            rw [runConn, hpoll]; rfl
          constructor
          · intro st' log hrun
            rw [hstep] at hrun
            exact tunnelFidelity_comp (hrec.1 st' log hrun)
              ⟨d, hd1, hd2⟩ ⟨[], by simp [hd5], by simp [hd4]⟩
          · intro s log hrun
            rw [hstep] at hrun
            obtain ⟨e, rest, he1, he2⟩ := hrec.2 s log hrun
            exact ⟨e, rest, by rw [he1, hd5],
              he2.trans (congrArg flatReads hd4)⟩
      | error err =>
        cases err with
        | wouldBlock =>
          have hpoll : connPoll dial (.tunnellingRead c u)
              = .next (.tunnellingWrite (ioCopy c u).w (ioCopy c u).r) [] := by
            simp [connPoll, hres]
          have hrec := ih (ioCopy c u).r (ioCopy c u).w
            (.tunnellingWrite (ioCopy c u).w (ioCopy c u).r) (Or.inr rfl)
            (hd6.trans hc) hd3
          have hstep : runConn dial (n + 1) (.tunnellingRead c u) []
              = runConn dial n
                  (.tunnellingWrite (ioCopy c u).w (ioCopy c u).r) [] := by
            rw [runConn, hpoll]; rfl
          constructor
          · intro st' log hrun
            rw [hstep] at hrun
            exact tunnelFidelity_comp (hrec.1 st' log hrun)
              ⟨d, hd1, hd2⟩ ⟨[], by simp [hd5], by simp [hd4]⟩
          · intro s log hrun
            rw [hstep] at hrun
            obtain ⟨e, rest, he1, he2⟩ := hrec.2 s log hrun
            exact ⟨e, rest, by rw [he1, hd5],
              he2.trans (congrArg flatReads hd4)⟩
        | unexpectedEof =>
          have hpoll : connPoll dial (.tunnellingRead c u)
              = .finished (ioCopy c u).r [] := by
            simp [connPoll, hres]
          constructor
          · intro st' log hrun
            rw [runConn, hpoll] at hrun
            exact absurd hrun (by simp)
          · intro s log hrun
            rw [runConn, hpoll] at hrun
            simp only [RunOut.finished.injEq] at hrun
            exact ⟨[], flatReads u.reads, by simp [← hrun.1, hd5], by simp⟩
        | writeZero =>
          have hpoll : connPoll dial (.tunnellingRead c u)
              = .finished (ioCopy c u).r [] := by
            simp [connPoll, hres]
          constructor
          · intro st' log hrun
            rw [runConn, hpoll] at hrun
            exact absurd hrun (by simp)
          · intro s log hrun
            rw [runConn, hpoll] at hrun
            simp only [RunOut.finished.injEq] at hrun
            exact ⟨[], flatReads u.reads, by simp [← hrun.1, hd5], by simp⟩
        | fatal =>
          have hpoll : connPoll dial (.tunnellingRead c u)
              = .finished (ioCopy c u).r [] := by
            simp [connPoll, hres]
          constructor
          · intro st' log hrun
            rw [runConn, hpoll] at hrun
            exact absurd hrun (by simp)
          · intro s log hrun
            rw [runConn, hpoll] at hrun
            simp only [RunOut.finished.injEq] at hrun
            exact ⟨[], flatReads u.reads, by simp [← hrun.1, hd5], by simp⟩
    · -- TunnellingWrite: io::copy(upstream, client)
      obtain ⟨d, hd1, hd2, hd3, hd4, hd5, hd6⟩ := ioCopy_coop u c hc
      cases hres : (ioCopy u c).res with
      | ok k =>
        cases k with
        | zero =>
          have hpoll : connPoll dial (.tunnellingWrite u c)
              = .finished (ioCopy u c).w [] := by
            simp [connPoll, hres]
          constructor
          · intro st' log hrun
            rw [runConn, hpoll] at hrun
            exact absurd hrun (by simp)
          · intro s log hrun
            rw [runConn, hpoll] at hrun
            simp only [RunOut.finished.injEq] at hrun
            exact ⟨d, flatReads (ioCopy u c).r.reads,
              by rw [← hrun.1, hd1], hd2⟩
        | succ m =>
          have hpoll : connPoll dial (.tunnellingWrite u c)
              = .next (.tunnellingWrite (ioCopy u c).r (ioCopy u c).w) [] := by
            simp [connPoll, hres]
          have hrec := ih (ioCopy u c).w (ioCopy u c).r
            (.tunnellingWrite (ioCopy u c).r (ioCopy u c).w) (Or.inr rfl)
            hd3 (hd6.trans hu)
          have hstep : runConn dial (n + 1) (.tunnellingWrite u c) []
              = runConn dial n
                  (.tunnellingWrite (ioCopy u c).r (ioCopy u c).w) [] := by
            rw [runConn, hpoll]; rfl
          constructor
          · intro st' log hrun
            rw [hstep] at hrun
            exact tunnelFidelity_comp (hrec.1 st' log hrun)
              ⟨[], by simp [hd5], by simp [hd4]⟩ ⟨d, hd1, hd2⟩
          · intro s log hrun
            rw [hstep] at hrun
            obtain ⟨e, rest, he1, he2⟩ := hrec.2 s log hrun
            exact ⟨d ++ e, rest, by rw [he1, hd1, List.append_assoc],
              by rw [List.append_assoc, he2, hd2]⟩
      | error err =>
        cases err with
        | wouldBlock =>
          have hpoll : connPoll dial (.tunnellingWrite u c)
              = .next (.tunnellingRead (ioCopy u c).w (ioCopy u c).r) [] := by
            simp [connPoll, hres]
          have hrec := ih (ioCopy u c).w (ioCopy u c).r
            (.tunnellingRead (ioCopy u c).w (ioCopy u c).r) (Or.inl rfl)
            hd3 (hd6.trans hu)
          have hstep : runConn dial (n + 1) (.tunnellingWrite u c) []
              = runConn dial n
                  (.tunnellingRead (ioCopy u c).w (ioCopy u c).r) [] := by
            rw [runConn, hpoll]; rfl
          constructor
          · intro st' log hrun
            rw [hstep] at hrun
            exact tunnelFidelity_comp (hrec.1 st' log hrun)
              ⟨[], by simp [hd5], by simp [hd4]⟩ ⟨d, hd1, hd2⟩
          · intro s log hrun
            rw [hstep] at hrun
            obtain ⟨e, rest, he1, he2⟩ := hrec.2 s log hrun
            exact ⟨d ++ e, rest, by rw [he1, hd1, List.append_assoc],
              by rw [List.append_assoc, he2, hd2]⟩
        | unexpectedEof =>
          have hpoll : connPoll dial (.tunnellingWrite u c)
              = .finished (ioCopy u c).w [] := by
            simp [connPoll, hres]
          constructor
          · intro st' log hrun
            rw [runConn, hpoll] at hrun
            exact absurd hrun (by simp)
          · intro s log hrun
            rw [runConn, hpoll] at hrun
            simp only [RunOut.finished.injEq] at hrun
            exact ⟨d, flatReads (ioCopy u c).r.reads,
              by rw [← hrun.1, hd1], hd2⟩
        | writeZero =>
          have hpoll : connPoll dial (.tunnellingWrite u c)
              = .finished (ioCopy u c).w [] := by
            simp [connPoll, hres]
          constructor
          · intro st' log hrun
            rw [runConn, hpoll] at hrun
            exact absurd hrun (by simp)
          · intro s log hrun
            rw [runConn, hpoll] at hrun
            simp only [RunOut.finished.injEq] at hrun
            exact ⟨d, flatReads (ioCopy u c).r.reads,
              by rw [← hrun.1, hd1], hd2⟩
        | fatal =>
          have hpoll : connPoll dial (.tunnellingWrite u c)
              = .finished (ioCopy u c).w [] := by
            simp [connPoll, hres]
          constructor
          · intro st' log hrun
            rw [runConn, hpoll] at hrun
            exact absurd hrun (by simp)
          · intro s log hrun
            rw [runConn, hpoll] at hrun
            simp only [RunOut.finished.injEq] at hrun
            exact ⟨d, flatReads (ioCopy u c).r.reads,
              by rw [← hrun.1, hd1], hd2⟩

/-- C1 (counterexample): bytes already read by `io::copy` are dropped when
the subsequent write reports would-block.  The client delivers `AB`; the
upstream's first write would-blocks; the direction switch triggered by that
would-block leaves the upstream with nothing written and the client script
fully consumed, and the completed run ends with `AB` relayed nowhere — the
bytes are dropped across a would-block direction switch. -/
theorem c1_counterexample :
    connPoll noDial
      (.tunnellingRead ⟨[.chunk [65, 66]], [], []⟩ ⟨[], [.block], []⟩)
      = .next (.tunnellingWrite ⟨[], [], []⟩ ⟨[], [], []⟩) [] ∧
    runConn noDial 3
      (.tunnellingRead ⟨[.chunk [65, 66]], [], []⟩ ⟨[], [.block], []⟩) []
      = .finished ⟨[], [], []⟩ [] := by decide

/-- C1 (amended): provided neither stream's writes ever report would-block
or fail (cooperative writers), tunnelling relays losslessly: from
`TunnellingRead`, after any number of polls the machine is still in a
tunnel state in which the bytes appended to the upstream are exactly the
bytes consumed from the client's script, in order — none duplicated,
dropped, or reordered across read-side would-block direction switches — and
symmetrically for the upstream-to-client direction; a finished run returns
the client stream whose written bytes extend the original by an in-order
prefix of the upstream's scripted bytes.  (With a write-side would-block
the bytes of the failed copy attempt are lost, per the counterexample.) -/
theorem c1_amended (dial : List Nat → Stream) (fuel : Nat) (c u : Stream)
    (hc : c.wscript = []) (hu : u.wscript = []) :
    (∀ st log, runConn dial fuel (.tunnellingRead c u) [] = .running st log →
      tunnelFidelity c u st) ∧
    (∀ s log, runConn dial fuel (.tunnellingRead c u) [] = .finished s log →
      ∃ e rest, s.written = c.written ++ e ∧ e ++ rest = flatReads u.reads) :=
  tunnel_run dial fuel c u (.tunnellingRead c u) (Or.inl rfl) hc hu

/-- C1 witness: after one poll relaying `Hi` from the client, the machine
is still tunnelling and the upstream's written bytes are exactly the
client's delivered bytes. -/
theorem c1_amended_witness :
    tunnelFidelity ⟨[.chunk [72, 105]], [], []⟩ emptyStream
      (.tunnellingRead ⟨[], [], []⟩ ⟨[], [], [72, 105]⟩) :=
  (c1_amended noDial 1 ⟨[.chunk [72, 105]], [], []⟩ emptyStream rfl rfl).1
    (.tunnellingRead ⟨[], [], []⟩ ⟨[], [], [72, 105]⟩) [] (by decide)

/-- `takeWhile`/`dropWhile` split exactly at the first predicate
failure. -/
theorem takeWhile_all {q : Nat → Bool} :
    ∀ (l : List Nat) (x : Nat) (r : List Nat),
      (∀ b ∈ l, q b = true) → q x = false →
      (l ++ x :: r).takeWhile q = l ∧ (l ++ x :: r).dropWhile q = x :: r := by
  intro l
  induction l with
  | nil =>
    intro x r _ hx
    simp [List.takeWhile_cons, List.dropWhile_cons, hx]
  | cons a l ih =>
    intro x r h hx
    have ha := h a (by simp)
    obtain ⟨ht, hd⟩ := ih x r (fun b hb => h b (by simp [hb])) hx
    simp [List.takeWhile_cons, List.dropWhile_cons, ha, ht, hd]

/-- `dropWhile` is the identity on a list whose members all fail the
predicate. -/
theorem dropWhile_all_false {q : Nat → Bool} :
    ∀ l : List Nat, (∀ b ∈ l, q b = false) → l.dropWhile q = l := by
  intro l
  induction l with
  | nil => intro _; rfl
  | cons a l ih =>
    intro h
    rw [List.dropWhile_cons, if_neg (by simp [h a (by simp)])]

/-- Splitting a whitespace-free token followed by a space. -/
theorem split_at_first_whitespace_clean (l r : List Nat)
    (h : ∀ b ∈ l, isWs b = false) :
    split_at_first_whitespace (l ++ 32 :: r) = some (l, 32 :: r) := by
  unfold split_at_first_whitespace
  rw [if_pos (by simp [List.any_append, List.any_cons, isWs])]
  obtain ⟨ht, hd⟩ := takeWhile_all (q := fun b => !isWs b) l 32 r
    (fun b hb => by simp [h b hb]) (by simp [isWs])
  rw [ht, hd]

/-- A whitespace-free span has no whitespace split. -/
theorem split_at_first_whitespace_none (l : List Nat)
    (h : ∀ b ∈ l, isWs b = false) :
    split_at_first_whitespace l = none := by
  unfold split_at_first_whitespace
  rw [if_neg]
  simp only [List.any_eq_true, not_exists, not_and]
  intro x hx
  simp [h x hx]

/-- Splitting a newline-free token followed by a CR. -/
theorem split_as_first_newline_clean (l r : List Nat)
    (h : ∀ b ∈ l, isNl b = false) :
    split_as_first_newline (l ++ 13 :: r) = some (l, 13 :: r) := by
  unfold split_as_first_newline
  rw [if_pos (by simp [List.any_append, List.any_cons, isNl])]
  obtain ⟨ht, hd⟩ := takeWhile_all (q := fun b => !isNl b) l 13 r
    (fun b hb => by simp [h b hb]) (by simp [isNl])
  rw [ht, hd]

/-- A newline-free span has no newline split. -/
theorem split_as_first_newline_none (l : List Nat)
    (h : ∀ b ∈ l, isNl b = false) :
    split_as_first_newline l = none := by
  unfold split_as_first_newline
  rw [if_neg]
  simp only [List.any_eq_true, not_exists, not_and]
  intro x hx
  simp [h x hx]

/-- A single leading space is skipped up to the next non-whitespace
byte. -/
theorem skip_whitespace_cons32 (x : Nat) (r : List Nat) (hx : isWs x = false) :
    skip_whitespace (32 :: x :: r) = x :: r := by
  unfold skip_whitespace
  rw [List.dropWhile_cons, if_pos (by simp [isWs]), List.dropWhile_cons,
    if_neg (by simp [hx])]

/-- The protocol line of any buffer shaped `method SP path SP version CR
tail` parses into its three tokens, with the newline run at the start of
`tail` consumed. -/
theorem protocolParse_shape (m p v tail : List Nat)
    (hm : ∀ b ∈ m, isWs b = false ∧ isNl b = false)
    (hp : p ≠ []) (hpb : ∀ b ∈ p, isWs b = false ∧ isNl b = false)
    (hv : v ≠ []) (hvb : ∀ b ∈ v, isWs b = false ∧ isNl b = false) :
    protocolParse (m ++ 32 :: (p ++ 32 :: (v ++ 13 :: tail)))
      = some (m, p, v, skip_newline tail) := by
  obtain ⟨ph, pt, rfl⟩ : ∃ ph pt, p = ph :: pt := by
    cases p with
    | nil => exact absurd rfl hp
    | cons a l => exact ⟨a, l, rfl⟩
  obtain ⟨vh, vt, rfl⟩ : ∃ vh vt, v = vh :: vt := by
    cases v with
    | nil => exact absurd rfl hv
    | cons a l => exact ⟨a, l, rfl⟩
  have h1 := split_at_first_whitespace_clean m
    ((ph :: pt) ++ 32 :: ((vh :: vt) ++ 13 :: tail)) (fun b hb => (hm b hb).1)
  have h2 : skip_whitespace (32 :: ((ph :: pt) ++ 32 :: ((vh :: vt) ++ 13 :: tail)))
      = (ph :: pt) ++ 32 :: ((vh :: vt) ++ 13 :: tail) :=
    skip_whitespace_cons32 ph _ ((hpb ph (by simp)).1)
  have h3 := split_at_first_whitespace_clean (ph :: pt)
    ((vh :: vt) ++ 13 :: tail) (fun b hb => (hpb b hb).1)
  have h4 : skip_whitespace (32 :: ((vh :: vt) ++ 13 :: tail))
      = (vh :: vt) ++ 13 :: tail :=
    skip_whitespace_cons32 vh _ ((hvb vh (by simp)).1)
  have h5 := split_as_first_newline_clean (vh :: vt) tail
    (fun b hb => (hvb b hb).2)
  have h6 : skip_newline (13 :: tail) = skip_newline tail := by
    unfold skip_newline
    rw [List.dropWhile_cons, if_pos (by simp [isNl])]
  simp only [protocolParse, h1, h2, h3, h4, h5, h6]

/-- Prefix of the assembled request inside the method token. -/
theorem mkData_take_A (m p v H : List Nat) (k : Nat) (hk : k ≤ m.length) :
    (mkData m p v H).take k = m.take k := by
  unfold mkData
  exact List.take_append_of_le_length hk

/-- Prefix of the assembled request inside the path token (or just past
the first space). -/
theorem mkData_take_B (m p v H : List Nat) (j : Nat) (hj : j ≤ p.length) :
    (mkData m p v H).take (m.length + 1 + j) = m ++ 32 :: p.take j := by
  unfold mkData
  rw [List.take_append_eq_append_take,
    List.take_of_length_le (by omega : m.length ≤ m.length + 1 + j)]
  congr 1
  rw [(by omega : m.length + 1 + j - m.length = j + 1), List.take_succ_cons,
    List.take_append_of_le_length hj]

/-- Prefix of the assembled request inside the version token (or just past
the second space). -/
theorem mkData_take_C (m p v H : List Nat) (j : Nat) (hj : j ≤ v.length) :
    (mkData m p v H).take (m.length + p.length + 2 + j)
      = m ++ 32 :: (p ++ 32 :: v.take j) := by
  unfold mkData
  rw [List.take_append_eq_append_take,
    List.take_of_length_le (by omega : m.length ≤ m.length + p.length + 2 + j)]
  congr 1
  rw [(by omega : m.length + p.length + 2 + j - m.length = p.length + 1 + j + 1),
    List.take_succ_cons, List.take_append_eq_append_take,
    List.take_of_length_le (by omega : p.length ≤ p.length + 1 + j)]
  congr 2
  rw [(by omega : p.length + 1 + j - p.length = j + 1), List.take_succ_cons,
    List.take_append_of_le_length hj]

/-- Prefix of the assembled request up to and including the first CR. -/
theorem mkData_take_CR (m p v H : List Nat) :
    (mkData m p v H).take (m.length + p.length + v.length + 3)
      = m ++ 32 :: (p ++ 32 :: (v ++ [13])) := by
  unfold mkData
  rw [List.take_append_eq_append_take,
    List.take_of_length_le (by omega : m.length ≤ m.length + p.length + v.length + 3)]
  congr 1
  rw [(by omega : m.length + p.length + v.length + 3 - m.length
      = p.length + v.length + 2 + 1), List.take_succ_cons,
    List.take_append_eq_append_take,
    List.take_of_length_le (by omega : p.length ≤ p.length + v.length + 2)]
  congr 2
  rw [(by omega : p.length + v.length + 2 - p.length = v.length + 1 + 1),
    List.take_succ_cons, List.take_append_eq_append_take,
    List.take_of_length_le (by omega : v.length ≤ v.length + 1)]
  congr 2
  rw [(by omega : v.length + 1 - v.length = 0 + 1), List.take_succ_cons]
  rfl

/-- Every proper prefix of the request that stops before the first CR has
an incomplete protocol line. -/
theorem protocolParse_prefix_none (m p v H : List Nat)
    (hm : ∀ b ∈ m, isWs b = false ∧ isNl b = false)
    (hp : p ≠ []) (hpb : ∀ b ∈ p, isWs b = false ∧ isNl b = false)
    (hvb : ∀ b ∈ v, isWs b = false ∧ isNl b = false) :
    ∀ k, k < m.length + p.length + v.length + 3 →
      protocolParse ((mkData m p v H).take k) = none := by
  intro k hk
  by_cases hA : k ≤ m.length
  · rw [mkData_take_A m p v H k hA]
    have hsplit := split_at_first_whitespace_none (m.take k)
      (fun b hb => (hm b (List.mem_of_mem_take hb)).1)
    simp [protocolParse, hsplit]
  · by_cases hB : k ≤ m.length + 1 + p.length
    · obtain ⟨j, hjle, rfl⟩ : ∃ j, j ≤ p.length ∧ k = m.length + 1 + j :=
        ⟨k - (m.length + 1), by omega, by omega⟩
      rw [mkData_take_B m p v H j hjle]
      have h1 := split_at_first_whitespace_clean m (p.take j)
        (fun b hb => (hm b hb).1)
      have h2 : skip_whitespace (32 :: p.take j) = p.take j := by
        unfold skip_whitespace
        rw [List.dropWhile_cons, if_pos (by simp [isWs])]
        exact dropWhile_all_false _
          (fun b hb => (hpb b (List.mem_of_mem_take hb)).1)
      have h3 := split_at_first_whitespace_none (p.take j)
        (fun b hb => (hpb b (List.mem_of_mem_take hb)).1)
      simp [protocolParse, h1, h2, h3]
    · obtain ⟨ph, pt, rfl⟩ : ∃ ph pt, p = ph :: pt := by
        cases p with
        | nil => exact absurd rfl hp
        | cons a l => exact ⟨a, l, rfl⟩
      obtain ⟨j, hjle, rfl⟩ : ∃ j, j ≤ v.length
          ∧ k = m.length + (ph :: pt).length + 2 + j := by
        refine ⟨k - (m.length + (ph :: pt).length + 2), ?_, ?_⟩ <;>
          (simp only [List.length_cons] at hk hB ⊢; omega)
      rw [mkData_take_C m (ph :: pt) v H j hjle]
      have h1 := split_at_first_whitespace_clean m
        ((ph :: pt) ++ 32 :: v.take j) (fun b hb => (hm b hb).1)
      have h2 : skip_whitespace (32 :: ((ph :: pt) ++ 32 :: v.take j))
          = (ph :: pt) ++ 32 :: v.take j :=
        skip_whitespace_cons32 ph _ ((hpb ph (by simp)).1)
      have h3 := split_at_first_whitespace_clean (ph :: pt) (v.take j)
        (fun b hb => (hpb b hb).1)
      have h4 : skip_whitespace (32 :: v.take j) = v.take j := by
        unfold skip_whitespace
        rw [List.dropWhile_cons, if_pos (by simp [isWs])]
        exact dropWhile_all_false _
          (fun b hb => (hvb b (List.mem_of_mem_take hb)).1)
      have h5 := split_as_first_newline_none (v.take j)
        (fun b hb => (hvb b (List.mem_of_mem_take hb)).2)
      simp only [List.cons_append] at h1 h2 h3
      simp [protocolParse, h1, h2, h3, h4, h5]

/-- One poll of the request handler with a single one-byte chunk at the
head of the read script: append that byte and re-parse the whole buffer. -/
theorem trickle_poll_gen (b : Nat) (rest : List ReadEv) (buf : List Nat) :
    requestHandlerPoll ⟨⟨.chunk [b] :: rest, [], []⟩, buf⟩
      = rhClassify ⟨⟨rest, [], []⟩, buf ++ [b]⟩ := by
  have h1 : ([b] : List Nat).take 512 = [b] := List.take_of_length_le (by simp)
  have h2 : ([b] : List Nat).drop 512 = [] := List.drop_eq_nil_of_le (by simp)
  simp [requestHandlerPoll, read_into, streamRead, h1, h2]

/-- One poll of the request handler over the one-byte-per-read stream:
read the next byte, append it to the accumulated buffer, and re-parse the
entire buffer. -/
theorem trickle_poll (data : List Nat) (j : Nat) (hj : j < data.length) :
    requestHandlerPoll ⟨⟨oneByteEvents (data.drop j), [], []⟩, data.take j⟩
      = rhClassify ⟨⟨oneByteEvents (data.drop (j + 1)), [], []⟩, data.take (j + 1)⟩ := by
  have hdrop : data.drop j = data[j] :: data.drop (j + 1) :=
    List.drop_eq_getElem_cons hj
  have htake : data.take (j + 1) = data.take j ++ [data[j]] := by
    rw [List.take_succ, List.getElem?_eq_getElem hj]
    rfl
  rw [hdrop, htake]
  simp only [oneByteEvents, List.map_cons]
  exact trickle_poll_gen data[j] _ (data.take j)

/-- An incomplete parse of the accumulated buffer reports "more data". -/
theorem rhClassify_moreData (s' : Stream) (buf : List Nat)
    (h : httpObjectParse 32 buf = .incomplete) :
    rhClassify ⟨s', buf⟩ = .moreData ⟨s', buf⟩ := by
  simp [rhClassify, h]

/-- A complete parse of the accumulated buffer with a UTF-8 path
classifies by its method token. -/
theorem rhClassify_complete {s' : Stream} {buf m p v : List Nat}
    {hs : List Header} {body : List Nat}
    (hputf : isUtf8 p = true)
    (h : httpObjectParse 32 buf = .complete m p v hs body) :
    rhClassify ⟨s', buf⟩
      = (match methodFrom m with
         | .connect => .wantsProxy p s'
         | .get => .wantsResource p s'
         | _ => .invalid ⟨s', buf⟩) := by
  simp only [rhClassify, h, hputf, if_true]

/-- Trickle-feeding `data` one byte per poll: as long as every proper
prefix before byte `k₀` parses incomplete and the `k₀`-byte prefix parses
complete with tokens `m`/`p`, the run classifies exactly as those tokens
dictate. -/
theorem trickle_run_aux (data : List Nat) (k₀ : Nat) (m p : List Nat)
    (hputf : isUtf8 p = true)
    (hlen : k₀ ≤ data.length)
    (hinc : ∀ k, k < k₀ → httpObjectParse 32 (data.take k) = .incomplete)
    (hcls : ∃ v hs body, httpObjectParse 32 (data.take k₀) = .complete m p v hs body) :
    ∀ (fuel j : Nat), j < k₀ → k₀ - j ≤ fuel →
      classifyOut (runRH fuel ⟨⟨oneByteEvents (data.drop j), [], []⟩, data.take j⟩)
        = expectedClass m p := by
  intro fuel
  induction fuel with
  | zero => intro j hj hfuel; omega
  | succ n ih =>
    intro j hj hfuel
    have hjlen : j < data.length := lt_of_lt_of_le hj hlen
    rw [runRH, trickle_poll data j hjlen]
    by_cases hk : j + 1 = k₀
    · obtain ⟨v, hs, body, hobj⟩ := hcls
      rw [hk, rhClassify_complete hputf hobj]
      cases hmf : methodFrom m <;> simp [expectedClass, hmf, classifyOut]
    · have hjk : j + 1 < k₀ := by omega
      rw [rhClassify_moreData _ _ (hinc (j + 1) hjk)]
      exact ih (j + 1) hjk (by omega)

/-- Feeding the whole request in a single read classifies by its method
token in one poll. -/
theorem oneshot_run (data m p : List Nat)
    (hputf : isUtf8 p = true)
    (hne : data ≠ [])
    (hlen : data.length ≤ 512)
    (hcls : ∃ v hs body, httpObjectParse 32 data = .complete m p v hs body) :
    classifyOut (runRH 1 ⟨⟨[.chunk data], [], []⟩, []⟩) = expectedClass m p := by
  obtain ⟨v, hs, body, hobj⟩ := hcls
  have ht : data.take 512 = data := List.take_of_length_le hlen
  have hd : data.drop 512 = [] := List.drop_eq_nil_of_le hlen
  have h1 : requestHandlerPoll ⟨⟨[.chunk data], [], []⟩, []⟩
      = rhClassify ⟨⟨[], [], []⟩, data⟩ := by
    simp [requestHandlerPoll, read_into, streamRead, ht, hd,
      List.length_eq_zero, hne]
  rw [runRH, h1, rhClassify_complete hputf hobj]
  cases hmf : methodFrom m <;> simp [expectedClass, hmf, classifyOut]

/-- C6: for a complete well-formed request `method SP path SP version CRLF
headers` (tokens free of whitespace and newlines, the path valid UTF-8 as
`str::from_utf8(..).unwrap()` requires), feeding the bytes one per poll
yields the same classification (method and destination/path) as feeding
all bytes in a single read — each poll re-parses the entire accumulated
buffer, and the first complete prefix carries the same method and path
tokens as the whole request. -/
theorem c6_trickle_equivalence (m p v H : List Nat)
    (hm : ∀ b ∈ m, isWs b = false ∧ isNl b = false)
    (hp : p ≠ []) (hpb : ∀ b ∈ p, isWs b = false ∧ isNl b = false)
    (hputf : isUtf8 p = true)
    (hv : v ≠ []) (hvb : ∀ b ∈ v, isWs b = false ∧ isNl b = false)
    (hH : ∃ hs body, headersLoop 32 [] (H.dropWhile isNl) = .complete hs body)
    (hlen : (mkData m p v H).length ≤ 512) :
    classifyOut (runRH (mkData m p v H).length
        ⟨⟨oneByteEvents (mkData m p v H), [], []⟩, []⟩)
      = classifyOut (runRH 1 ⟨⟨[.chunk (mkData m p v H)], [], []⟩, []⟩) ∧
    classifyOut (runRH 1 ⟨⟨[.chunk (mkData m p v H)], [], []⟩, []⟩)
      = expectedClass m p := by
  obtain ⟨hs, body, hHL⟩ := hH
  have hdatalen : (mkData m p v H).length
      = m.length + p.length + v.length + 4 + H.length := by
    simp [mkData]
    omega
  have hfullproto : protocolParse (mkData m p v H)
      = some (m, p, v, H.dropWhile isNl) := by
    have := protocolParse_shape m p v (10 :: H) hm hp hpb hv hvb
    rw [show mkData m p v H = m ++ 32 :: (p ++ 32 :: (v ++ 13 :: (10 :: H))) from rfl]
    rw [this]
    have : skip_newline (10 :: H) = H.dropWhile isNl := by
      unfold skip_newline
      rw [List.dropWhile_cons, if_pos (by simp [isNl])]
    rw [this]
  have hfull : httpObjectParse 32 (mkData m p v H) = .complete m p v hs body := by
    simp only [httpObjectParse, hfullproto, hHL]
  have hk0 : httpObjectParse 32
      ((mkData m p v H).take (m.length + p.length + v.length + 3))
      = .complete m p v [] [] := by
    rw [mkData_take_CR]
    have hshape := protocolParse_shape m p v [] hm hp hpb hv hvb
    simp only [httpObjectParse, hshape]
    rfl
  have hinc : ∀ k, k < m.length + p.length + v.length + 3 →
      httpObjectParse 32 ((mkData m p v H).take k) = .incomplete := by
    intro k hk
    simp only [httpObjectParse, protocolParse_prefix_none m p v H hm hp hpb hvb k hk]
  have hone : classifyOut (runRH 1 ⟨⟨[.chunk (mkData m p v H)], [], []⟩, []⟩)
      = expectedClass m p :=
    oneshot_run (mkData m p v H) m p hputf
      (by intro hnil; rw [hnil] at hdatalen; simp at hdatalen; omega)
      hlen ⟨v, hs, body, hfull⟩
  refine ⟨?_, hone⟩
  rw [hone]
  have := trickle_run_aux (mkData m p v H) (m.length + p.length + v.length + 3)
    m p hputf (by omega) hinc ⟨v, [], [], hk0⟩ (mkData m p v H).length 0
    (by omega) (by omega)
  simpa using this

/-- C6 witness: trickling `CONNECT example.com:443 HTTP/1.1\r\n\r\n` one
byte per poll classifies identically to a single read, namely as a proxy
request for `example.com:443`. -/
theorem c6_witness :
    classifyOut (runRH
        (mkData [67, 79, 78, 78, 69, 67, 84] destBytes
          [72, 84, 84, 80, 47, 49, 46, 49] [13, 10]).length
        ⟨⟨oneByteEvents (mkData [67, 79, 78, 78, 69, 67, 84] destBytes
          [72, 84, 84, 80, 47, 49, 46, 49] [13, 10]), [], []⟩, []⟩)
      = classifyOut (runRH 1
        ⟨⟨[.chunk (mkData [67, 79, 78, 78, 69, 67, 84] destBytes
          [72, 84, 84, 80, 47, 49, 46, 49] [13, 10])], [], []⟩, []⟩) ∧
    classifyOut (runRH 1
        ⟨⟨[.chunk (mkData [67, 79, 78, 78, 69, 67, 84] destBytes
          [72, 84, 84, 80, 47, 49, 46, 49] [13, 10])], [], []⟩, []⟩)
      = expectedClass [67, 79, 78, 78, 69, 67, 84] destBytes :=
  c6_trickle_equivalence [67, 79, 78, 78, 69, 67, 84] destBytes
    [72, 84, 84, 80, 47, 49, 46, 49] [13, 10]
    (by decide) (by decide) (by decide) (by decide) (by decide) (by decide)
    ⟨[], [], by decide⟩ (by decide)

end Twister
